import Mathlib

/-!
Verification development for the mpy-workbench synchronization core.

The TypeScript source is embedded shallowly: strings are Lean `String`s
(or `List Char` where character-level reasoning is needed), JS `Map`/`Set`
objects become insertion-ordered association lists, external subprocess
invocations become calls into an explicit `World` (argv list to outcome),
and each operation additionally returns the list of observable effects it
performed (commands run, sleeps, cache invalidations) so that ordering
properties can be stated.
-/

namespace MpyWorkbench

/-- JS `replace(/^\//, "")` on a character list: remove one leading slash. -/
def stripLeadSlash : List Char → List Char
  | '/' :: rest => rest
  | l => l

/-- JS `replace(/\/$/, "")` on a character list: remove one trailing slash. -/
def stripTrailSlash (l : List Char) : List Char :=
  if l.getLast? = some '/' then l.dropLast else l

/-- JS `replace(/\/+/g, "/")` on a character list: collapse each run of
slashes to a single slash. -/
def collapseSlashes : List Char → List Char
  | [] => []
  | [c] => [c]
  | a :: b :: rest =>
    if a = '/' ∧ b = '/' then collapseSlashes (b :: rest)
    else a :: collapseSlashes (b :: rest)

/-- Character-level core of `toLocalRelative` (extension.ts): map an absolute
device path to a path relative to the configured remote root. -/
def toLocalRelativeChars (devicePath rootPath : List Char) : List Char :=
  let normRoot := if rootPath = ['/'] then ['/'] else stripTrailSlash rootPath
  if normRoot = ['/'] then stripLeadSlash devicePath
  else if (normRoot ++ ['/']).isPrefixOf devicePath then
    devicePath.drop (normRoot.length + 1)
  else if devicePath = normRoot then []
  else stripLeadSlash devicePath

/-- Character-level core of `BoardOperations.toDevicePath`: map a
workspace-relative path back to an absolute device path. -/
def toDevicePathChars (localRel rootPath : List Char) : List Char :=
  let normalizedLocalPath := stripTrailSlash (collapseSlashes localRel)
  let normalizedRootPath := stripTrailSlash (collapseSlashes rootPath)
  if normalizedRootPath = [] then '/' :: normalizedLocalPath
  else if normalizedLocalPath = [] then normalizedRootPath
  else normalizedRootPath ++ '/' :: normalizedLocalPath

/-- `toLocalRelative(devicePath, rootPath)` from the board-operations module. -/
def toLocalRelative (devicePath rootPath : String) : String :=
  String.mk (toLocalRelativeChars devicePath.data rootPath.data)

/-- `BoardOperations.toDevicePath(localRel, rootPath)`. -/
def toDevicePath (localRel rootPath : String) : String :=
  String.mk (toDevicePathChars localRel.data rootPath.data)

/-- `BoardOperations.relFromDevice`: the source duplicates the body of
`toLocalRelative` verbatim, so the embedding shares the character-level core. -/
def relFromDevice (devicePath rootPath : String) : String :=
  String.mk (toLocalRelativeChars devicePath.data rootPath.data)

/-! JS `Map` as an insertion-ordered association list: `set` overwrites in
place, `get` finds the unique entry. -/

/-- JS `Map.set`: overwrite an existing key in place, else append. -/
def jsMapSet {α : Type} : List (String × α) → String → α → List (String × α)
  | [], k, v => [(k, v)]
  | (k', v') :: rest, k, v =>
    if k' = k then (k, v) :: rest else (k', v') :: jsMapSet rest k v

/-- JS `Map.get`. -/
def jsLookup {α : Type} (m : List (String × α)) (k : String) : Option α :=
  (m.find? (fun e => e.1 = k)).map (·.2)

/-- A remote file entry as produced by `getBoardFilesAndSizes` (the `files`
map values): size in bytes plus a directory flag (always `false` for entries
of the `files` map). -/
structure BoardInfo where
  size : Nat
  isDir : Bool
deriving DecidableEq

/-- The three file-level result sets of `BoardOperations.checkDiffs`
(the directory-only sets are separate outputs, outside this model). -/
structure DiffOutcome where
  diffSet : List String
  localOnlySet : List String
  boardOnlySet : List String
deriving DecidableEq

/-- Comparison phase of `BoardOperations.checkDiffs` (extension.ts): the
local manifest keys, the per-file `fs.stat` sizes (`none` = stat failure),
and the board files map are inputs; the body mirrors the source loops,
including the `localFileSizes.get(localRel) || -1` JS-falsy coercion that
sends both a failed stat and a stored size of `0` to `-1`. -/
def checkDiffsModel (rootPath : String) (localFiles : List String)
    (localStat : String → Option Nat)
    (boardFiles : List (String × BoardInfo))
    (matcher : String → Bool → Bool) : DiffOutcome :=
  let filteredBoardFiles :=
    boardFiles.filter (fun e => !matcher (relFromDevice e.1 rootPath) false)
  let boardFileByRelPath : List (String × (String × Nat)) :=
    filteredBoardFiles.foldl
      (fun m e => jsMapSet m (relFromDevice e.1 rootPath) (e.1, e.2.size)) []
  let localSize : String → Int := fun rel =>
    match localStat rel with
    | some n => if (n : Int) = 0 then -1 else (n : Int)
    | none => -1
  let step := fun (acc : List String × List String) (rel : String) =>
    match jsLookup boardFileByRelPath rel with
    | some bf =>
      if localSize rel ≠ (bf.2 : Int) then (acc.1 ++ [bf.1], acc.2) else acc
    | none => (acc.1, acc.2 ++ [toDevicePath rel rootPath])
  let fl := localFiles.foldl step ([], [])
  let boardOnlySet :=
    (boardFileByRelPath.filter (fun e => !localFiles.contains e.1)).map
      (fun e => e.2.1)
  { diffSet := fl.1, localOnlySet := fl.2, boardOnlySet := boardOnlySet }

/-! Baseline upload phase of `BoardOperations.syncBaseline` (extension.ts,
individual-upload loop): outcomes of the two local `fs.access` checks and of
each `mp.cpToDevice` call are supplied by an environment. -/

/-- Environment for one run of the baseline upload loop: whether each
manifest file passes the first local-existence check, whether it still
exists at the per-file re-check, and whether its copy succeeds. -/
structure SyncFileEnv where
  exists1 : String → Bool
  exists2 : String → Bool
  copyOk : String → Bool

/-- Result of the upload phase: the pre-filtered file lists, the files for
which a copy was actually attempted, and the success/failure tally. -/
structure UploadReport where
  validFiles : List String
  missingFiles : List String
  attemptedCopies : List String
  uploaded : Nat
  failed : Nat
deriving DecidableEq

/-- The per-file upload loop (`for (const relativePath of validFiles)`):
a file that vanished since the first check counts as failed and is skipped;
otherwise the copy is attempted and the tally updated; every error path
continues with the next file. -/
def uploadLoop (env : SyncFileEnv) :
    List String → Nat → Nat → List String → Nat × Nat × List String
  | [], u, f, acc => (u, f, acc.reverse)
  | x :: rest, u, f, acc =>
    if !env.exists2 x then uploadLoop env rest u (f + 1) acc
    else if env.copyOk x then uploadLoop env rest (u + 1) f (x :: acc)
    else uploadLoop env rest u (f + 1) (x :: acc)

/-- The upload phase of `syncBaseline`: split the manifest files into
locally-present and missing (the latter are skipped with a warning), then
run the per-file loop. The phase never throws: its result is a report. -/
def syncBaselineUploads (files : List String) (env : SyncFileEnv) :
    UploadReport :=
  let validFiles := files.filter env.exists1
  let missingFiles := files.filter (fun f => !env.exists1 f)
  let r := uploadLoop env validFiles 0 0 []
  { validFiles := validFiles, missingFiles := missingFiles,
    attemptedCopies := r.2.2, uploaded := r.1, failed := r.2.1 }

/-! Directory-creation plan of `BoardOperations.syncBaseline` (extension.ts).
Posix paths are represented by their lists of path segments: the device path
`path.posix.join(rootPath, relativePath)` is `root ++ f`,
`path.posix.dirname` is `List.dropLast`, the root `/` (and the equivalent
`'.'` guard for an empty root) is the segment list of the configured root,
and the depth `p.split('/').filter(p => p).length` is the segment count. -/

/-- Fuel-indexed body of the ancestor walk; the fuel is the length of the
starting directory, which bounds the number of `dirname` steps. -/
def collectAncestorsGo (root : List String) :
    Nat → List String → List (List String)
  | 0, _ => []
  | n + 1, ds =>
    if ds = root ∨ ds = [] then []
    else ds :: collectAncestorsGo root n ds.dropLast

/-- The `while (currentDir !== rootPath && currentDir !== '/')` walk that
pushes every ancestor directory of `ds` strictly below the root. -/
def collectAncestors (root ds : List String) : List (List String) :=
  collectAncestorsGo root ds.length ds

/-- JS `Set.add` on an insertion-ordered list. -/
def jsSetAdd {α : Type} [DecidableEq α] (acc : List α) (x : α) : List α :=
  if x ∈ acc then acc else acc ++ [x]

/-- Add all elements in order (the body of the `while` loop accumulating
into the `allDirectories` set). -/
def jsSetAddAll {α : Type} [DecidableEq α] (acc : List α) (xs : List α) :
    List α :=
  xs.foldl jsSetAdd acc

/-- The `allDirectories` set of `syncBaseline`: for every file, every parent
directory of its destination path strictly below the remote root. -/
def allDirectoriesFor (root : List String) (files : List (List String)) :
    List (List String) :=
  files.foldl
    (fun acc f =>
      let deviceDir := (root ++ f).dropLast
      if deviceDir = root then acc
      else jsSetAddAll acc (collectAncestors root deviceDir)) []

/-- `sortedDirectories`: the plan, sorted by depth ascending (array sort
with comparator `depthA - depthB`). -/
def sortedDirectories (root : List String) (files : List (List String)) :
    List (List String) :=
  (allDirectoriesFor root files).insertionSort
    (fun a b => a.length ≤ b.length)

instance : IsTotal (List String) (fun a b => a.length ≤ b.length) :=
  ⟨fun a b => Nat.le_total a.length b.length⟩

instance : IsTrans (List String) (fun a b => a.length ≤ b.length) :=
  ⟨fun _ _ _ h1 h2 => Nat.le_trans h1 h2⟩

/-! JS string utilities used by the mpremote module (mpremote.ts). -/

/-- JS `toLowerCase` (ASCII is all that the compared error strings use). -/
def lowerStr (s : String) : String :=
  String.mk (s.data.map Char.toLower)

/-- JS `String.includes`. -/
def jsIncludes (s pat : String) : Bool :=
  decide (pat.data <:+: s.data)

/-- Character-level whitespace trim (JS `trim`). -/
def trimChars (cs : List Char) : List Char :=
  ((cs.dropWhile Char.isWhitespace).reverse.dropWhile Char.isWhitespace).reverse

/-- JS `trim`. -/
def jsTrim (s : String) : String :=
  String.mk (trimChars s.data)

/-- Whether a string's last character is `c`. -/
def endsWithChar (s : String) (c : Char) : Bool :=
  s.data.getLast? = some c

/-- Split a character list at every character satisfying `p` (JS `split`
with a single-character class: empty pieces are kept). -/
def splitPredGo (p : Char → Bool) : List Char → List Char → List (List Char)
  | [], acc => [acc.reverse]
  | c :: rest, acc =>
    if p c then acc.reverse :: splitPredGo p rest []
    else splitPredGo p rest (c :: acc)

/-- JS `s.split(sep)` for a one-character separator. -/
def splitStr (s : String) (sep : Char) : List String :=
  (splitPredGo (fun c => c = sep) s.data []).map String.mk

/-- JS `split(/\r?\n/)`: split on newlines, a preceding carriage return
belongs to the separator. -/
def splitLines (s : String) : List String :=
  (splitStr s '\n').map (fun l =>
    if endsWithChar l '\r' then String.mk l.data.dropLast else l)

/-- JS `trimmed.split(/\s+/).filter(part => part.length > 0)`. -/
def splitWs (s : String) : List String :=
  ((splitPredGo Char.isWhitespace s.data []).map String.mk).filter
    (fun p => p ≠ "")

/-- Decimal value of a digit run. -/
def parseIntDigits (ds : List Char) : Nat :=
  ds.foldl (fun acc c => acc * 10 + (c.toNat - '0'.toNat)) 0

/-- JS `parseInt`: optional leading whitespace and sign, then leading
digits; `none` models `NaN`. -/
def parseIntJS (s : String) : Option Int :=
  let cs := s.data.dropWhile (·.isWhitespace)
  let sign : Int := match cs with
    | '-' :: _ => -1
    | _ => 1
  let cs2 : List Char := match cs with
    | '-' :: r => r
    | '+' :: r => r
    | _ => cs
  let ds := cs2.takeWhile (·.isDigit)
  if ds.isEmpty then none
  else some (sign * (parseIntDigits ds : Nat))

/-- JS `parseInt(x) || 0`: both `NaN` and `0` collapse to `0`. -/
def jsParseIntOr0 (s : String) : Int :=
  (parseIntJS s).getD 0

/-- JS `xs.join(sep)` for slash paths. -/
def joinSlash (xs : List String) : String :=
  String.intercalate "/" xs

/-- JS `s.substring(0, s.lastIndexOf('/'))` on a character list (with the
JS convention that a missing slash yields the empty string). -/
def parentChars (cs : List Char) : List Char :=
  (((cs.reverse.dropWhile (fun c => c ≠ '/'))).drop 1).reverse

/-- The parent-directory computation of `cpToDevice`/`uploadReplacing`. -/
def jsParentDir (s : String) : String :=
  String.mk (parentChars s.data)

/-! Shallow embedding of the external-process layer (mpremote.ts). The
observable behavior of one operation is its `Except` result together with
the ordered list of effects it performed: external-tool invocations (as
argv lists), retry sleeps, and in-memory tree-cache invalidations
(`clearFileTreeCache`). The `World` answers each argv list with the
subprocess outcome; the connection-manager bookkeeping (health map,
in-progress flag) is process-global state that does not alter any result
in the single-operation setting modeled here, and is omitted. -/

/-- One observable effect of an operation. -/
inductive Effect where
  | runCmd (args : List String)
  | sleep (ms : Nat)
  | clearCache
deriving DecidableEq

/-- Outcome of external-tool invocations: argv list to stdout or error. -/
structure World where
  call : List String → Except String String

deriving instance DecidableEq for Except

/-- The invocations of a trace (argv lists, in order). -/
def runsOf (tr : List Effect) : List (List String) :=
  tr.filterMap (fun eff => match eff with
    | .runCmd a => some a
    | _ => none)

/-- The backoff delays of a trace (milliseconds, in order). -/
def sleepsOf (tr : List Effect) : List Nat :=
  tr.filterMap (fun eff => match eff with
    | .sleep m => some m
    | _ => none)

/-- Whether an invocation outcome is a success. -/
def isOkB (r : Except String String) : Bool :=
  match r with
  | .ok _ => true
  | .error _ => false

/-- The transient-error test of `runMpremote`'s retry branch. -/
def transientRetryErr (e : String) : Bool :=
  let errorStr := lowerStr e
  jsIncludes errorStr "device not configured" ||
  jsIncludes errorStr "connection timeout" ||
  jsIncludes errorStr "serial read failed" ||
  jsIncludes errorStr "failed to access" ||
  jsIncludes errorStr "it may be in use by another program"

/-- The retry loop of `runMpremote`: `k` is the 1-based attempt number and
`left` the number of retries still allowed (`maxRetries + 1 - k`); a failed
attempt is retried only while retries remain and the error is transient,
after a `500 * attempt` ms backoff delay. -/
def runMpremoteGo (attempts : Nat → Except String String)
    (args : List String) :
    Nat → Nat → Except String String × List Effect
  | k, 0 =>
    (match attempts k with
     | .ok o => (.ok o, [.runCmd args])
     | .error e => (.error e, [.runCmd args]))
  | k, left + 1 =>
    match attempts k with
    | .ok o => (.ok o, [.runCmd args])
    | .error e =>
      if transientRetryErr e then
        let r := runMpremoteGo attempts args (k + 1) left
        (r.1, .runCmd args :: .sleep (500 * k) :: r.2)
      else (.error e, [.runCmd args])

/-- `runMpremote(args, opts)`: `maxRetries = opts.retryOnFailure !== false
? 2 : 0`, first attempt number 1. -/
def runMpremote (attempts : Nat → Except String String)
    (args : List String) (retryOnFailure : Bool) :
    Except String String × List Effect :=
  runMpremoteGo attempts args 1 (if retryOnFailure then 2 else 0)

/-- An operation's call into `runMpremote` against a (deterministic)
world: every attempt observes the same outcome. -/
def callW (w : World) (retryOnFailure : Bool) (args : List String) :
    Except String String × List Effect :=
  runMpremote (fun _ => w.call args) args retryOnFailure

/-- Character-level `startsWith` (the byte-based `String.startsWith` does
not reduce in the kernel). -/
def strStartsWith (s pre : String) : Bool :=
  pre.data.isPrefixOf s.data

/-- Character-level drop of the first `n` characters. -/
def strDrop (s : String) (n : Nat) : String :=
  String.mk (s.data.drop n)

/-- `normalizeConnect` (mpremote.ts). -/
def normalizeConnect (c : String) : String :=
  if strStartsWith c "serial://" then strDrop c 9
  else if strStartsWith c "serial:/" then strDrop c 8
  else if strStartsWith c "cu." && !strStartsWith c "/dev/" then "/dev/" ++ c
  else c

/-- The connect string every operation derives:
`normalizeConnect(config.get("mpyWorkbench.connect", "auto") || "auto")`
(an empty configured value is JS-falsy and becomes `"auto"`). -/
def effConnect (cfg : String) : String :=
  normalizeConnect (if cfg = "" then "auto" else cfg)

/-- The typed configuration error thrown for a missing concrete port. -/
def portErr : String := "Select a specific serial port first"

/-- The guard `!connect || connect === "auto"`. -/
def badConnect (connect : String) : Bool :=
  connect = "" || connect = "auto"

/-- The argument normalization `p && p !== "/" ? p : "/"`. -/
def pathArgOf (p : String) : String :=
  if p ≠ "" && p ≠ "/" then p else "/"

/-- `mkdir(p)` (mpremote.ts): reject a non-concrete port, run
`fs mkdir`, and invalidate the tree cache on success. -/
def mkdirOp (cfg : String) (w : World) (p : String) :
    Except String Unit × List Effect :=
  let connect := effConnect cfg
  if badConnect connect then (.error portErr, [])
  else
    let pathArg := pathArgOf p
    match callW w true ["connect", connect, "fs", "mkdir", pathArg] with
    | (.ok _, tr) => (.ok (), tr ++ [.clearCache])
    | (.error e, tr) => (.error e, tr)

/-- `cpFromDevice(devicePath, localPath)` (mpremote.ts): device source gets
its leading slash stripped and a `:` prefix; a read does not invalidate the
cache; failures are wrapped in an enhanced message. -/
def cpFromDeviceOp (cfg : String) (w : World) (devicePath localPath : String) :
    Except String Unit × List Effect :=
  let connect := effConnect cfg
  if badConnect connect then (.error portErr, [])
  else
    let deviceArg := if devicePath ≠ "" && devicePath ≠ "/" then
        String.mk (stripLeadSlash devicePath.data)
      else "/"
    let devicePathWithPrefix := if deviceArg = "/" then ":" else ":" ++ deviceArg
    match callW w true
        ["connect", connect, "fs", "cp", devicePathWithPrefix, localPath] with
    | (.ok _, tr) => (.ok (), tr)
    | (.error e, tr) =>
      let command := "mpremote connect " ++ connect ++ " fs cp \"" ++ deviceArg
        ++ "\" \"" ++ localPath ++ "\""
      (.error ("Failed to copy from device: " ++ e ++ "\nCommand: " ++ command
        ++ "\nOriginal device path: " ++ devicePath
        ++ "\nNormalized device path: " ++ deviceArg
        ++ "\nLocal path: " ++ localPath), tr)

/-- The per-level `mkdir` loop of the missing-parent recovery
(`for (let i = 1; i < pathParts.length; i++)`); each creation error is
swallowed. -/
def mkLevels (connect : String) (w : World) (parts : List String) :
    List Effect :=
  ((List.range parts.length).drop 1).foldl
    (fun tr i =>
      tr ++ (callW w false
        ["connect", connect, "fs", "mkdir", "/" ++ joinSlash (parts.take i)]).2)
    []

/-- The read-only-filesystem recovery chain of `cpToDevice`: root stat,
then reset + 2s wait + retry, then remount + retry, then a write test;
returns whether some retry succeeded, with the trace. -/
def cpReadOnlyRecovery (connect : String) (w : World)
    (cpArgs : List String) : Bool × List Effect :=
  let trStat := (callW w false ["connect", connect, "fs", "stat", "/"]).2
  let m1 : Bool × List Effect :=
    match callW w false ["connect", connect, "reset"] with
    | (.ok _, trA) =>
      match callW w false cpArgs with
      | (.ok _, trB) => (true, trA ++ [.sleep 2000] ++ trB ++ [.clearCache])
      | (.error _, trB) => (false, trA ++ [.sleep 2000] ++ trB)
    | (.error _, trA) => (false, trA)
  if m1.1 then (true, trStat ++ m1.2)
  else
    let m2 : Bool × List Effect :=
      match callW w false ["connect", connect, "exec",
          "import os; os.umount(\x27/\x27); os.mount(os.VfsFat(os.sdcard()), \x27/\x27)"] with
      | (.ok _, trA) =>
        match callW w false cpArgs with
        | (.ok _, trB) => (true, trA ++ trB ++ [.clearCache])
        | (.error _, trB) => (false, trA ++ trB)
      | (.error _, trA) => (false, trA)
    if m2.1 then (true, trStat ++ m1.2 ++ m2.2)
    else
      let trM3 := (callW w false ["connect", connect, "exec",
        "f = open(\x27test_write.tmp\x27, \x27w\x27); f.write(\x27test\x27); f.close()"]).2
      (false, trStat ++ m1.2 ++ m2.2 ++ trM3)

/-- `cpToDevice(localPath, devicePath)` (mpremote.ts): pre-create the parent
directory with `mkdir -p` (outcome ignored), copy with a plain `fs cp`
(no force flag), invalidate the cache on success; on failure attempt the
missing-parent recovery (per-level mkdir then one retry) and the read-only
recovery chain before surfacing the original error. -/
def cpToDeviceOp (cfg : String) (w : World) (localPath devicePath : String) :
    Except String Unit × List Effect :=
  let connect := effConnect cfg
  if badConnect connect then (.error portErr, [])
  else
    let deviceArg := if devicePath ≠ "" && devicePath ≠ "/" then devicePath
      else "/"
    let parentDir := jsParentDir deviceArg
    let tr0 :=
      if parentDir ≠ "" && parentDir ≠ "/" then
        (callW w true ["connect", connect, "fs", "mkdir", "-p", parentDir]).2
      else []
    let devicePathWithPrefix := if deviceArg = "/" then ":" else ":" ++ deviceArg
    let cpArgs := ["connect", connect, "fs", "cp", localPath,
      devicePathWithPrefix]
    match callW w true cpArgs with
    | (.ok _, tr1) => (.ok (), tr0 ++ tr1 ++ [.clearCache])
    | (.error e, tr1) =>
      let errorStr := lowerStr e
      let base := tr0 ++ tr1
      let missingParent := jsIncludes errorStr "no such file or directory"
        || jsIncludes errorStr "file not found"
      let rec1 : Option Unit × List Effect :=
        if missingParent then
          let parts := (splitStr deviceArg '/').filter (fun x => x ≠ "")
          let mkTr := mkLevels connect w parts
          match callW w false cpArgs with
          | (.ok _, trr) => (some (), mkTr ++ trr ++ [.clearCache])
          | (.error _, trr) => (none, mkTr ++ trr)
        else (none, [])
      match rec1 with
      | (some _, tr2) => (.ok (), base ++ tr2)
      | (none, tr2) =>
        if jsIncludes errorStr "read-only file system" then
          let rec2 := cpReadOnlyRecovery connect w cpArgs
          if rec2.1 then (.ok (), base ++ tr2 ++ rec2.2)
          else (.error e, base ++ tr2 ++ rec2.2)
        else (.error e, base ++ tr2)

/-- `uploadReplacing(localPath, devicePath)` (mpremote.ts): same parent
pre-creation, but the copy is issued as `fs cp -f` (force overwrite);
on a missing-parent error, create each level and retry `cp -f` once. -/
def uploadReplacingOp (cfg : String) (w : World)
    (localPath devicePath : String) : Except String Unit × List Effect :=
  let connect := effConnect cfg
  if badConnect connect then (.error portErr, [])
  else
    let deviceArg := if devicePath ≠ "" && devicePath ≠ "/" then devicePath
      else "/"
    let parentDir := jsParentDir deviceArg
    let tr0 :=
      if parentDir ≠ "" && parentDir ≠ "/" then
        (callW w true ["connect", connect, "fs", "mkdir", "-p", parentDir]).2
      else []
    let devicePathWithPrefix := if deviceArg = "/" then ":" else ":" ++ deviceArg
    let cpArgs := ["connect", connect, "fs", "cp", "-f", localPath,
      devicePathWithPrefix]
    match callW w true cpArgs with
    | (.ok _, tr1) => (.ok (), tr0 ++ tr1 ++ [.clearCache])
    | (.error e, tr1) =>
      let errorStr := lowerStr e
      let base := tr0 ++ tr1
      if jsIncludes errorStr "no such file or directory"
          || jsIncludes errorStr "file not found" then
        let parts := (splitStr deviceArg '/').filter (fun x => x ≠ "")
        let mkTr := mkLevels connect w parts
        match callW w false cpArgs with
        | (.ok _, trr) => (.ok (), base ++ mkTr ++ trr ++ [.clearCache])
        | (.error _, trr) => (.error e, base ++ mkTr ++ trr)
      else (.error e, base)

/-- `deleteFile(p)` (mpremote.ts): remove a file through an inline Python
`os.remove`; note that no cache invalidation is performed. -/
def deleteFileOp (cfg : String) (w : World) (p : String) :
    Except String Unit × List Effect :=
  let connect := effConnect cfg
  if badConnect connect then (.error portErr, [])
  else
    let pythonCode := "import os; os.remove(\x27" ++ p ++ "\x27)"
    match callW w true ["connect", connect, "exec", pythonCode] with
    | (.ok _, tr) => (.ok (), tr)
    | (.error e, tr) => (.error e, tr)

/-- Parsed `fs stat` output of `getFileInfo` (mpremote.ts); the directory
and readonly bits are mode tests (the tool prints a nonnegative mode, so
the `Int.toNat` coercion is the identity on real outputs). -/
structure StatInfo where
  mode : Int
  size : Int
  isDir : Bool
  isReadonly : Bool
deriving DecidableEq

/-- `getFileInfo(p)` (mpremote.ts): stat the path and parse
`path mode size mtime`; a not-found error yields `none`, any other error
is re-thrown. -/
def getFileInfoOp (cfg : String) (w : World) (p : String) :
    Except String (Option StatInfo) × List Effect :=
  let connect := effConnect cfg
  if badConnect connect then (.error portErr, [])
  else
    match callW w true ["connect", connect, "fs", "stat", pathArgOf p] with
    | (.ok out, tr) =>
      let parts := splitWs (jsTrim out)
      if parts.length ≥ 4 then
        let mode := jsParseIntOr0 ((parts.get? 1).getD "")
        let size := jsParseIntOr0 ((parts.get? 2).getD "")
        let info : StatInfo :=
          { mode := mode
            size := size
            isDir := (mode.toNat &&& 0x4000) != 0
            isReadonly := (mode.toNat &&& 0x0080) == 0 }
        (.ok (some info), tr)
      else (.ok none, tr)
    | (.error e, tr) =>
      let errorStr := lowerStr e
      if jsIncludes errorStr "no such file" ||
          jsIncludes errorStr "file not found" ||
          jsIncludes errorStr "does not exist" then (.ok none, tr)
      else (.error e, tr)

/-- The parsed stat of a successful `fs stat` output, as `getFileInfo`
computes it (factored out for reasoning about `deleteAny`). -/
def statInfoOf (out : String) : Option StatInfo :=
  let parts := splitWs (jsTrim out)
  if parts.length ≥ 4 then
    let mode := jsParseIntOr0 ((parts.get? 1).getD "")
    let size := jsParseIntOr0 ((parts.get? 2).getD "")
    some { mode := mode
           size := size
           isDir := (mode.toNat &&& 0x4000) != 0
           isReadonly := (mode.toNat &&& 0x0080) == 0 }
  else none

/-- Per-line parse of the `fs ls` output inside
`deleteDirectoryRecursive`: `size name` pairs, a directory being a
zero-size entry with a trailing slash. -/
def parseLsEntries (out : String) : List (String × Bool) :=
  ((splitLines out).filter (fun l => jsTrim l ≠ "")).filterMap (fun line =>
    if jsTrim line = "" || jsIncludes line "ls" then none
    else
      let parts := splitWs (jsTrim line)
      if parts.length ≥ 2 then
        let size := jsParseIntOr0 ((parts.get? 0).getD "")
        let filename := String.intercalate " " (parts.drop 1)
        let isDir := size == 0 && endsWithChar filename '/'
        some (String.mk (stripTrailSlash filename.data), isDir)
      else none)

/-- Child path construction of `deleteDirectoryRecursive`. -/
def ddrItemPath (p clean : String) : String :=
  if p = "/" then "/" ++ clean else p ++ "/" ++ clean

/-- The child loop of `deleteDirectoryRecursive`: subdirectories recurse
through `recur` (failures propagate), file deletions are attempted and
their failures swallowed. -/
def ddrChildren (recur : String → Except String Unit × List Effect)
    (w : World) (connect : String) (p : String) :
    List (String × Bool) → Except String Unit × List Effect
  | [] => (.ok (), [])
  | (clean, isDir) :: rest =>
    let itemPath := ddrItemPath p clean
    if isDir then
      match recur itemPath with
      | (.error e, tr) => (.error e, tr)
      | (.ok _, tr) =>
        let r := ddrChildren recur w connect p rest
        (r.1, tr ++ r.2)
    else
      let trf := (callW w true ["connect", connect, "fs", "rm", itemPath]).2
      let r := ddrChildren recur w connect p rest
      (r.1, trf ++ r.2)

/-- `deleteDirectoryRecursive(p, connect)` (mpremote.ts): list the
directory, delete every child (depth-first), and remove the now-empty
directory itself last. The fuel bounds the nesting depth only; a real
(finite) filesystem always fits. -/
def deleteDirectoryRecursiveOp (w : World) (connect : String) :
    Nat → String → Except String Unit × List Effect
  | 0, _ => (.error "recursion depth exceeded", [])
  | fuel + 1, p =>
    match callW w true ["connect", connect, "fs", "ls", p] with
    | (.error e, tr) => (.error e, tr)
    | (.ok out, tr) =>
      let items := parseLsEntries out
      match ddrChildren
          (fun q => deleteDirectoryRecursiveOp w connect fuel q)
          w connect p items with
      | (.error e, tr2) => (.error e, tr ++ tr2)
      | (.ok _, tr2) =>
        match callW w true ["connect", connect, "fs", "rmdir", p] with
        | (.ok _, tr3) => (.ok (), tr ++ tr2 ++ tr3)
        | (.error e, tr3) => (.error e, tr ++ tr2 ++ tr3)

/-- The `fs rm` argv of `deleteAny`, with `-r` exactly for directories. -/
def rmArgsFor (connect p : String) (isDir : Bool) : List String :=
  ["connect", connect, "fs", "rm"] ++ (if isDir then ["-r"] else [])
    ++ [pathArgOf p]

/-- The directory-not-empty test of `deleteAny`'s catch block. -/
def dirNotEmptyErr (e : String) : Bool :=
  let errorMessage := lowerStr e
  jsIncludes errorMessage "oserror: 39" ||
    jsIncludes errorMessage "directory not empty"

/-- The directory bit extracted from a successful `fs stat` output, as
`deleteAny` derives it through `getFileInfo` (`fileInfo?.isDir || false`). -/
def statIsDirOf (out : String) : Bool :=
  let parts := splitWs (jsTrim out)
  if parts.length ≥ 4 then
    ((jsParseIntOr0 ((parts.get? 1).getD "")).toNat &&& 0x4000) != 0
  else false

/-- The catch block of `deleteAny`: on a directory-not-empty error
(`OSError: 39`) fall back once to the manual recursive delete, invalidating
the cache if it succeeds and wrapping its error if not; any other error is
re-thrown. -/
def deleteAnyCatch (w : World) (connect : String) (fuel : Nat) (p : String)
    (e : String) (tr : List Effect) : Except String Unit × List Effect :=
  if dirNotEmptyErr e then
    match deleteDirectoryRecursiveOp w connect fuel p with
    | (.ok _, tr2) => (.ok (), tr ++ tr2 ++ [.clearCache])
    | (.error e2, tr2) =>
      (.error ("Failed to delete directory " ++ p ++ ": " ++ e2), tr ++ tr2)
  else (.error e, tr)

/-- `deleteAny(p)` (mpremote.ts): stat first to decide file vs directory,
issue `fs rm` (`-r` for directories), invalidate the cache on success, and
recover through `deleteAnyCatch` on failure. -/
def deleteAnyOp (cfg : String) (w : World) (fuel : Nat) (p : String) :
    Except String Unit × List Effect :=
  let connect := effConnect cfg
  if badConnect connect then (.error portErr, [])
  else
    match getFileInfoOp cfg w p with
    | (.ok info, tr) =>
      let isDirectory := (info.map (·.isDir)).getD false
      match callW w true (rmArgsFor connect p isDirectory) with
      | (.ok _, tr2) => (.ok (), tr ++ tr2 ++ [.clearCache])
      | (.error e, tr2) => deleteAnyCatch w connect fuel p e (tr ++ tr2)
    | (.error e, tr) => deleteAnyCatch w connect fuel p e tr

/-- `fileExists(p)` (mpremote.ts): a successful `fs stat` means the file
exists; every failure branch of the catch (not-found, serial/connection,
anything else) returns `false`. -/
def fileExistsOp (cfg : String) (w : World) (p : String) :
    Except String Bool × List Effect :=
  let connect := effConnect cfg
  if badConnect connect then (.error portErr, [])
  else
    match callW w true ["connect", connect, "fs", "stat", pathArgOf p] with
    | (.ok _, tr) => (.ok true, tr)
    | (.error e, tr) =>
      let errorStr := lowerStr e
      if jsIncludes errorStr "no such file" ||
          jsIncludes errorStr "file not found" ||
          jsIncludes errorStr "does not exist" then (.ok false, tr)
      else if jsIncludes errorStr "serialexception" ||
          jsIncludes errorStr "device not configured" ||
          jsIncludes errorStr "connection failed" then (.ok false, tr)
      else (.ok false, tr)

/-- `mvOnDevice(src, dst)` (mpremote.ts): move/rename, invalidating the
cache on success and wrapping failures. -/
def mvOnDeviceOp (cfg : String) (w : World) (src dst : String) :
    Except String Unit × List Effect :=
  let connect := effConnect cfg
  if badConnect connect then (.error portErr, [])
  else
    let srcArg := if src ≠ "" && src ≠ "/" then "\"" ++ src ++ "\"" else "/"
    let dstArg := if dst ≠ "" && dst ≠ "/" then "\"" ++ dst ++ "\"" else "/"
    match callW w true ["connect", connect, "fs", "mv", srcArg, dstArg] with
    | (.ok _, tr) => (.ok (), tr ++ [.clearCache])
    | (.error e, tr) => (.error ("Move/rename failed: " ++ e), tr)

/-- One entry of `listTreeStats`' result (the `mtime` field of the source
is `Date.now()`-based and carries no filesystem information; it is
omitted). -/
structure TreeStat where
  path : String
  isDir : Bool
  size : Int
deriving DecidableEq

/-- The per-line parse of `listTreeStats`' `fs tree` fallback. -/
def parseTreeStatsLines (out : String) : List TreeStat :=
  ((splitLines out).filter (fun l => jsTrim l ≠ "")).filterMap (fun line =>
    let trimmed := jsTrim line
    if trimmed = "" || jsIncludes trimmed "tree" then none
    else
      let parts := splitWs trimmed
      if parts.length ≥ 2 then
        let size := jsParseIntOr0 ((parts.get? 0).getD "")
        let filename := String.intercalate " " (parts.drop 1)
        let isDir := endsWithChar filename '/'
        let st : TreeStat :=
          { path := String.mk (stripTrailSlash filename.data)
            isDir := isDir
            size := size }
        some st
      else none)

/-- `listTreeStats(root)` (mpremote.ts): a fresh `tree-paths.json` cache
(when present, `cacheFile`) is served with default sizes and no
invocation; otherwise `fs tree` is invoked and parsed, and an invocation
failure rejects the whole listing. -/
def listTreeStatsOp (cfg : String)
    (cacheFile : Option (List (String × Bool))) (w : World) (root : String) :
    Except String (List TreeStat) × List Effect :=
  let connect := effConnect cfg
  if badConnect connect then (.error portErr, [])
  else
    match cacheFile with
    | some items =>
      (.ok (items.map (fun it =>
        { path := it.1, isDir := it.2, size := 0 })), [])
    | none =>
      let rootArg := if root ≠ "" && root ≠ "/" then [root] else []
      match callW w true (["connect", connect, "fs", "tree"] ++ rootArg) with
      | (.ok out, tr) => (.ok (parseTreeStatsLines out), tr)
      | (.error e, tr) => (.error e, tr)

/-! The `lsTyped` chain (mpremote.ts): indentation-based tree parsing, the
directory heuristic, the in-memory tree cache, and the `fs ls` fallback. -/

/-- Character scan of `parseTreeLine`'s while loop; the fuel is the line
length (each step consumes at least three characters). -/
def parseTreeLineGo (line : String) :
    Nat → Nat → List Char → Option (Nat × String)
  | 0, _, _ => none
  | _ + 1, _, [] => none
  | fuel + 1, level, rem =>
    if rem.take 3 = ['├', '─', '─'] || rem.take 3 = ['└', '─', '─'] then
      some (level, jsTrim (String.mk (rem.drop 3)))
    else if rem.take 4 = ['│', ' ', ' ', ' '] then
      parseTreeLineGo line fuel (level + 1) (rem.drop 4)
    else if rem.take 4 = [' ', ' ', ' ', ' '] then
      parseTreeLineGo line fuel (level + 1) (rem.drop 4)
    else
      let stripped := jsTrim line
      if stripped ≠ "" && stripped ≠ line then
        some ((line.length - stripped.length) / 4, stripped)
      else none

/-- `parseTreeLine(line)`: indentation level and item name, or `null`. -/
def parseTreeLine (line : String) : Option (Nat × String) :=
  if jsTrim line = "" then none
  else parseTreeLineGo line line.data.length 0 line.data

/-- The file-extension set of `determineIsDirectory`. -/
def fileExtensions : List String :=
  ["py", "txt", "log", "md", "html", "css", "js", "json",
   "ico", "png", "jpg", "jpeg", "gif", "svg", "csv", "xml",
   "yml", "yaml", "toml", "ini", "cfg", "conf"]

/-- The extension-less special file names of `determineIsDirectory`. -/
def specialFiles : List String :=
  ["main", "boot", "README", "LICENSE", "Makefile"]

/-- The bounded look-ahead of `determineIsDirectory`: scan up to nine
following lines; a deeper-indented parseable line means directory (`some
true`), an empty line, a `tree` line, a `:` line, or a level-0 parseable
line stops the scan (`none`), and an unparseable line is skipped. -/
def lookAheadChildren : List String → Nat → Option Bool
  | _, 0 => none
  | [], _ => none
  | l :: rest, n + 1 =>
    let nextLine := jsTrim l
    if nextLine = "" || jsIncludes nextLine "tree" || nextLine = ":" then none
    else
      match parseTreeLine nextLine with
      | some lv => if lv.1 > 0 then some true else none
      | none => lookAheadChildren rest n

/-- `determineIsDirectory(name, allLines, currentIndex)`: known file
extensions and special names are files; an item with deeper-indented
children is a directory; otherwise an extension-less, non-hidden name is
assumed to be a directory. -/
def determineIsDirectory (name : String) (allLines : List String)
    (currentIndex : Nat) : Bool :=
  let extSaysFile :=
    if jsIncludes name "." then
      let parts := splitStr name '.'
      if parts.length ≥ 2 then
        fileExtensions.contains
          (lowerStr ((parts.get? (parts.length - 1)).getD ""))
      else false
    else false
  if extSaysFile then false
  else if specialFiles.contains name then false
  else
    match lookAheadChildren (allLines.drop (currentIndex + 1)) 9 with
    | some b => b
    | none =>
      !jsIncludes name "." && name ≠ "tree" && name.length > 0 &&
        !strStartsWith name "."

/-- One entry of the flat parsed tree. -/
structure ParsedLine where
  fullPath : String
  name : String
  isDir : Bool
  depth : Nat
deriving DecidableEq

/-- `parseTreeLines(treeOutput)`: parse the tree drawing into a flat list
with full paths, reconstructing paths through an explicit directory stack
(`dirStack.splice(level)` keeps the first `level` entries); the
directory-vs-file decision looks the line up by its first occurrence
(`lines.indexOf(line)`), as the source does. -/
def parseTreeLines (treeOutput : String) : List ParsedLine :=
  let lines := (splitLines treeOutput).filter (fun l => jsTrim l ≠ "")
  (lines.foldl (fun (st : List ParsedLine × List String) line =>
    if jsTrim line = "" || jsIncludes line "tree" || line = ":/" || line = ":"
    then st
    else
      match parseTreeLine line with
      | none => st
      | some lv =>
        let level := lv.1
        let name := lv.2
        let dirStack := st.2.take level
        let fullPath := if dirStack.length = 0 then "/" ++ name
          else ((dirStack.get? (dirStack.length - 1)).getD "") ++ "/" ++ name
        let isDir := determineIsDirectory name lines (lines.indexOf line)
        (st.1 ++ [⟨fullPath, name, isDir, level⟩],
         if isDir then dirStack ++ [fullPath] else dirStack))
    ([], [])).1

/-- The in-memory tree cache built by `buildTreeFromParsedLines`. Nodes
are identified by their index in the parsed-line list (the JS object
identity); `nodeMap` maps a full path to the root (`none`) or a directory
node, and children lists record insertion order. The index identity makes
the JS aliasing (`nodeMap.set` overwriting a path) observable. -/
structure TreeCache where
  rootChildren : List Nat
  childrenOf : List (Nat × List Nat)
  nodeMap : List (String × Option Nat)
deriving DecidableEq

/-- Append a child id to a parent node's children list. -/
def addChild : List (Nat × List Nat) → Nat → Nat → List (Nat × List Nat)
  | [], pid, i => [(pid, [i])]
  | (k, v) :: rest, pid, i =>
    if k = pid then (k, v ++ [i]) :: rest
    else (k, v) :: addChild rest pid i

/-- `buildTreeFromParsedLines(parsedLines)`: attach every item to the node
registered for its parent path (items with unknown parents are dropped);
directories register themselves in the path map. -/
def buildTreeFromParsedLines (parsedLines : List ParsedLine) : TreeCache :=
  parsedLines.enum.foldl (fun (tc : TreeCache) pair =>
    let i := pair.1
    let item := pair.2
    let pathParts := (splitStr item.fullPath '/').filter (fun s => s ≠ "")
    let parentPath := if pathParts.length > 1 then
        "/" ++ joinSlash pathParts.dropLast
      else "/"
    match jsLookup tc.nodeMap parentPath with
    | none => tc
    | some parentRef =>
      let tc1 := match parentRef with
        | none => { tc with rootChildren := tc.rootChildren ++ [i] }
        | some pid => { tc with childrenOf := addChild tc.childrenOf pid i }
      if item.isDir then
        { tc1 with nodeMap := jsMapSet tc1.nodeMap item.fullPath (some i) }
      else tc1)
    { rootChildren := [], childrenOf := [], nodeMap := [("/", none)] }

/-- Children ids of a node reference (`none` = root). -/
def childrenIds (tc : TreeCache) (ref : Option Nat) : List Nat :=
  match ref with
  | none => tc.rootChildren
  | some pid => ((tc.childrenOf.find? (fun e => e.1 = pid)).map (·.2)).getD []

/-- `getEntriesFromCache(targetPath)`: walk the cached tree by path
segment, taking the first child with a matching name; `none` when some
segment is missing. -/
def getEntriesFromCache (parsedLines : List ParsedLine) (tc : TreeCache)
    (targetPath : String) : Option (List (String × Bool)) :=
  let nameOf := fun (i : Nat) => ((parsedLines.get? i).map (·.name)).getD ""
  let isDirOf := fun (i : Nat) =>
    ((parsedLines.get? i).map (·.isDir)).getD false
  if targetPath = "/" then
    some (tc.rootChildren.map (fun i => (nameOf i, isDirOf i)))
  else
    let pathParts := (splitStr targetPath '/').filter (fun s => s ≠ "")
    let node := pathParts.foldl (fun (cur : Option (Option Nat)) part =>
      match cur with
      | none => none
      | some ref =>
        match (childrenIds tc ref).find? (fun i => nameOf i = part) with
        | none => none
        | some i => some (some i)) (some none)
    match node with
    | none => none
    | some ref => some ((childrenIds tc ref).map (fun i =>
        (nameOf i, isDirOf i)))

/-- `parseTreeForPath(treeOutput, targetPath)`: direct children of the
target path in a freshly parsed tree. -/
def parseTreeForPath (treeOutput : String) (targetPath : String) :
    List (String × Bool) :=
  let parsedLines := parseTreeLines treeOutput
  let targetItems := parsedLines.filter (fun item =>
    if targetPath = "/" then item.depth == 0
    else
      let targetParts := (splitStr targetPath '/').filter (fun s => s ≠ "")
      let itemParts := (splitStr item.fullPath '/').filter (fun s => s ≠ "")
      itemParts.length == targetParts.length + 1 &&
        decide (targetParts <+: itemParts))
  targetItems.map (fun item => (item.name, item.isDir))

/-- The `fs ls` last-resort parse of `lsTyped`. -/
def parseLsFallback (lsOutput : String) : List (String × Bool) :=
  ((splitLines lsOutput).filter (fun l => jsTrim l ≠ "")).filterMap (fun line =>
    let trimmed := jsTrim line
    if trimmed = "" || jsIncludes trimmed "ls" then none
    else
      let parts := splitWs trimmed
      if parts.length ≥ 2 then
        let size := jsParseIntOr0 ((parts.get? 0).getD "")
        let filename := String.intercalate " " (parts.drop 1)
        if filename ≠ "" then
          some (String.mk (stripTrailSlash filename.data),
            size == 0 && endsWithChar filename '/')
        else none
      else none)

/-- The direct-parse branch of `lsTyped`: run `fs tree`, parse for the
path; when that yields nothing, try `fs ls` — whose failure is swallowed,
returning the (empty) tree-parse result. -/
def lsTypedDirect (connect : String) (w : World) (p : String)
    (tr0 : List Effect) :
    Except String (List (String × Bool)) × List Effect :=
  match callW w true ["connect", connect, "fs", "tree"] with
  | (.error e, tr) => (.error e, tr0 ++ tr)
  | (.ok out, tr) =>
    let result := parseTreeForPath out p
    if result.length = 0 then
      let args := ["connect", connect, "fs", "ls"]
        ++ (if p ≠ "" && p ≠ "/" then [p] else [])
      match callW w true args with
      | (.ok lsOut, tr2) => (.ok (parseLsFallback lsOut), tr0 ++ tr ++ tr2)
      | (.error _, tr2) => (.ok result, tr0 ++ tr ++ tr2)
    else (.ok result, tr0 ++ tr)

/-- `lsTyped(p)` (mpremote.ts): note there is no concrete-port validation —
the derived connect string (possibly `"auto"`) goes straight into the
invocation. An invalid in-memory cache (`memCache = none`) is repopulated
by `populateFileTreeCache`, whose invocation failure rethrows; a valid
cache is the parse of an earlier tree output (`memCache = some raw`). The
cache file write of `populateFileTreeCache` is a side effect with no
bearing on the result and is omitted. -/
def lsTypedOp (cfg : String) (memCache : Option String) (w : World)
    (p : String) : Except String (List (String × Bool)) × List Effect :=
  let connect := effConnect cfg
  let popFirst : Except String (List ParsedLine) × List Effect :=
    match memCache with
    | some rawOut => (.ok (parseTreeLines rawOut), [])
    | none =>
      match callW w true ["connect", connect, "fs", "tree"] with
      | (.ok out, tr) => (.ok (parseTreeLines out), tr)
      | (.error e, tr) => (.error e, tr)
  match popFirst with
  | (.error e, tr) => (.error e, tr)
  | (.ok pl, tr0) =>
    match getEntriesFromCache pl (buildTreeFromParsedLines pl) p with
    | some entries =>
      if entries.length > 0 then (.ok entries, tr0)
      else lsTypedDirect connect w p tr0
    | none => lsTypedDirect connect w p tr0

theorem mem_jsSetAdd {α : Type} [DecidableEq α] (acc : List α) (x y : α) :
    y ∈ jsSetAdd acc x ↔ y ∈ acc ∨ y = x := by
  unfold jsSetAdd
  split
  · rename_i hx
    constructor
    · exact fun h => Or.inl h
    · rintro (h | rfl)
      · exact h
      · exact hx
  · simp

theorem mem_jsSetAddAll {α : Type} [DecidableEq α] (xs : List α) :
    ∀ (acc : List α) (y : α), y ∈ jsSetAddAll acc xs ↔ y ∈ acc ∨ y ∈ xs := by
  induction xs with
  | nil => intro acc y; simp [jsSetAddAll]
  | cons x rest ih =>
    intro acc y
    show y ∈ jsSetAddAll (jsSetAdd acc x) rest ↔ _
    rw [ih, mem_jsSetAdd]
    simp [or_assoc]

theorem nodup_jsSetAdd {α : Type} [DecidableEq α] (acc : List α) (x : α)
    (h : acc.Nodup) : (jsSetAdd acc x).Nodup := by
  unfold jsSetAdd
  split
  · exact h
  · rename_i hx
    simpa [List.nodup_append] using ⟨h, hx⟩

theorem nodup_jsSetAddAll {α : Type} [DecidableEq α] (xs : List α) :
    ∀ (acc : List α), acc.Nodup → (jsSetAddAll acc xs).Nodup := by
  induction xs with
  | nil => intro acc h; exact h
  | cons x rest ih => intro acc h; exact ih _ (nodup_jsSetAdd acc x h)

theorem isPrefix_dropLast_of_ne {α : Type} {d ds : List α}
    (h : d <+: ds) (hne : d ≠ ds) : d <+: ds.dropLast := by
  obtain ⟨t, rfl⟩ := h
  rcases t.eq_nil_or_concat with rfl | ⟨t', x, rfl⟩
  · exact absurd (by simp) hne
  · rw [List.concat_eq_append, ← List.append_assoc, List.dropLast_concat]
    exact ⟨t', rfl⟩

theorem isPrefix_antisymm {α : Type} {a b : List α}
    (h1 : a <+: b) (h2 : b <+: a) : a = b :=
  h1.eq_of_length (Nat.le_antisymm h1.length_le h2.length_le)

theorem mem_collectAncestorsGo {root d : List String} :
    ∀ (n : Nat) (ds : List String), ds.length ≤ n →
    root <+: d → d ≠ root → d <+: ds →
    d ∈ collectAncestorsGo root n ds := by
  intro n
  induction n with
  | zero =>
    intro ds hlen hrd hdr hds
    obtain rfl : ds = [] := List.length_eq_zero.mp (Nat.le_zero.mp hlen)
    obtain rfl := List.prefix_nil.mp hds
    exact absurd (List.prefix_nil.mp hrd).symm hdr
  | succ n ih =>
    intro ds hlen hrd hdr hds
    unfold collectAncestorsGo
    split
    · rename_i hcase
      rcases hcase with rfl | rfl
      · exact absurd (isPrefix_antisymm hds hrd) hdr
      · obtain rfl := List.prefix_nil.mp hds
        exact absurd (List.prefix_nil.mp hrd).symm hdr
    · rename_i hcase
      by_cases hd : d = ds
      · exact hd ▸ List.mem_cons_self _ _
      · have hne : ds ≠ [] := fun hnil => hcase (Or.inr hnil)
        have hlen' : ds.dropLast.length ≤ n := by
          rw [List.length_dropLast]
          omega
        exact List.mem_cons_of_mem _
          (ih ds.dropLast hlen' hrd hdr (isPrefix_dropLast_of_ne hds hd))

theorem mem_collectAncestors {root d ds : List String}
    (hrd : root <+: d) (hdr : d ≠ root) (hds : d <+: ds) :
    d ∈ collectAncestors root ds :=
  mem_collectAncestorsGo ds.length ds (Nat.le_refl _) hrd hdr hds

theorem mem_allDirectoriesFor {root d : List String}
    {files : List (List String)} :
    ∀ acc : List (List String),
    (d ∈ acc ∨ ∃ f ∈ files, root <+: d ∧ d ≠ root ∧ d <+: (root ++ f).dropLast) →
    d ∈ files.foldl
      (fun acc f =>
        let deviceDir := (root ++ f).dropLast
        if deviceDir = root then acc
        else jsSetAddAll acc (collectAncestors root deviceDir)) acc := by
  induction files with
  | nil =>
    intro acc h
    rcases h with h | ⟨f, hf, _⟩
    · exact h
    · exact absurd hf (List.not_mem_nil f)
  | cons f fs ih =>
    intro acc h
    rw [List.foldl_cons]
    apply ih
    rcases h with h | ⟨g, hg, hrd, hdr, hds⟩
    · left
      dsimp only
      split
      · exact h
      · exact (mem_jsSetAddAll _ _ _).mpr (Or.inl h)
    · rcases List.mem_cons.mp hg with rfl | hg'
      · left
        dsimp only
        split
        · rename_i heq
          exact absurd (isPrefix_antisymm (heq ▸ hds) hrd) hdr
        · exact (mem_jsSetAddAll _ _ _).mpr
            (Or.inr (mem_collectAncestors hrd hdr hds))
      · exact Or.inr ⟨g, hg', hrd, hdr, hds⟩

theorem nodup_allDirectoriesFor (root : List String)
    (files : List (List String)) : (allDirectoriesFor root files).Nodup := by
  unfold allDirectoriesFor
  have : ∀ (fs : List (List String)) (acc : List (List String)), acc.Nodup →
      (fs.foldl
        (fun acc f =>
          let deviceDir := (root ++ f).dropLast
          if deviceDir = root then acc
          else jsSetAddAll acc (collectAncestors root deviceDir)) acc).Nodup := by
    intro fs
    induction fs with
    | nil => intro acc h; exact h
    | cons f fs ih =>
      intro acc h
      rw [List.foldl_cons]
      apply ih
      dsimp only
      split
      · exact h
      · exact nodup_jsSetAddAll _ _ h
  exact this files [] List.nodup_nil

theorem uploadLoop_spec (env : SyncFileEnv) (l : List String) :
    ∀ (u f : Nat) (acc : List String),
    uploadLoop env l u f acc =
      (u + (l.filter (fun x => env.exists2 x && env.copyOk x)).length,
       f + (l.filter (fun x => !env.exists2 x || !env.copyOk x)).length,
       acc.reverse ++ l.filter (fun x => env.exists2 x)) := by
  induction l with
  | nil => intro u f acc; simp [uploadLoop]
  | cons x rest ih =>
    intro u f acc
    by_cases h2 : env.exists2 x
    · by_cases hc : env.copyOk x
      · simp [uploadLoop, h2, hc, ih, List.filter_cons, Nat.add_assoc,
          Nat.add_comm 1]
      · simp [uploadLoop, h2, hc, ih, List.filter_cons, Nat.add_assoc,
          Nat.add_comm 1]
    · simp [uploadLoop, h2, ih, List.filter_cons, Nat.add_assoc,
        Nat.add_comm 1]

theorem length_filter_split {α : Type} (p : α → Bool) (l : List α) :
    (l.filter p).length + (l.filter (fun x => !p x)).length = l.length := by
  induction l with
  | nil => rfl
  | cons x rest ih =>
    by_cases h : p x = true <;>
      simp [List.filter_cons, h, ← ih] <;> omega

theorem collapse_of_no_slash :
    ∀ (l : List Char), '/' ∉ l → collapseSlashes l = l := by
  intro l
  induction l with
  | nil => intro _; rfl
  | cons x rest ih =>
    intro h
    cases rest with
    | nil => rfl
    | cons y r =>
      have hx : ¬(x = '/' ∧ y = '/') := by
        rintro ⟨rfl, -⟩
        exact h (List.mem_cons_self _ _)
      rw [collapseSlashes, if_neg hx]
      have := ih (fun hm => h (List.mem_cons_of_mem _ hm))
      rw [this]

theorem collapse_seg :
    ∀ (a b : List Char), '/' ∉ a → '/' ∉ b →
    collapseSlashes (a ++ '/' :: b) = a ++ '/' :: b := by
  intro a
  induction a with
  | nil =>
    intro b _ hb
    cases b with
    | nil => rfl
    | cons y r =>
      have hy : ¬('/' = '/' ∧ y = '/') := by
        rintro ⟨-, rfl⟩
        exact hb (List.mem_cons_self _ _)
      show collapseSlashes ('/' :: y :: r) = '/' :: y :: r
      rw [collapseSlashes, if_neg hy, collapse_of_no_slash (y :: r) hb]
  | cons x a' ih =>
    intro b hxa hb
    have hx : ¬(x = '/' ∧ (a' ++ '/' :: b).head? = some '/') := by
      rintro ⟨rfl, -⟩
      exact hxa (List.mem_cons_self _ _)
    cases hm : a' ++ '/' :: b with
    | nil => exact absurd hm (by simp)
    | cons y r =>
      have hrec := ih b (fun hm' => hxa (List.mem_cons_of_mem _ hm')) hb
      rw [hm] at hrec
      have hx' : ¬(x = '/' ∧ y = '/') := by
        rintro ⟨rfl, -⟩
        exact hxa (List.mem_cons_self _ _)
      show collapseSlashes (x :: (a' ++ '/' :: b)) = x :: (a' ++ '/' :: b)
      rw [hm, collapseSlashes, if_neg hx', hrec]

theorem stripTrail_seg (a b : List Char) (hb : b ≠ []) (hsb : '/' ∉ b) :
    stripTrailSlash (a ++ '/' :: b) = a ++ '/' :: b := by
  rcases b.eq_nil_or_concat with rfl | ⟨b', c, rfl⟩
  · exact absurd rfl hb
  · have hc : c ≠ '/' := by
      intro he
      exact hsb (by simp [he, List.concat_eq_append])
    unfold stripTrailSlash
    rw [List.concat_eq_append, ← List.cons_append, ← List.append_assoc,
      List.getLast?_concat]
    simp [hc]

theorem isPrefixOf_append_self :
    ∀ (l t : List Char), l.isPrefixOf (l ++ t) = true := by
  intro l t
  induction l with
  | nil => simp [List.isPrefixOf]
  | cons x rest ih => simp [List.isPrefixOf, ih]

theorem stringDataMk (l : List Char) : (String.mk l).data = l := rfl

theorem toLocalRelativeChars_root_slash (rel : List Char) :
    toLocalRelativeChars ('/' :: rel) ['/'] = rel := by
  dsimp only [toLocalRelativeChars]
  have h1 : (if (['/'] : List Char) = ['/'] then (['/'] : List Char)
      else stripTrailSlash ['/']) = ['/'] := by decide
  rw [h1]
  have h2 : (['/'] : List Char) = ['/'] := rfl
  rw [if_pos h2]
  rfl

theorem toLocalRelativeChars_root_app (rel : List Char) :
    (toLocalRelativeChars (['/', 'a', 'p', 'p', '/'] ++ rel)
        ['/', 'a', 'p', 'p'] = rel)
    ∧ (toLocalRelativeChars (['/', 'a', 'p', 'p', '/'] ++ rel)
        ['/', 'a', 'p', 'p', '/'] = rel) := by
  have hpre : ((['/', 'a', 'p', 'p'] : List Char) ++ ['/']).isPrefixOf
      (['/', 'a', 'p', 'p', '/'] ++ rel) = true := by
    have he : (['/', 'a', 'p', 'p'] : List Char) ++ ['/']
        = ['/', 'a', 'p', 'p', '/'] := rfl
    rw [he]
    exact isPrefixOf_append_self _ _
  have hdrop : (['/', 'a', 'p', 'p', '/'] ++ rel).drop
      ((['/', 'a', 'p', 'p'] : List Char).length + 1) = rel := by
    have h5 : ((['/', 'a', 'p', 'p'] : List Char)).length + 1
        = ((['/', 'a', 'p', 'p', '/'] : List Char)).length := rfl
    rw [h5, List.drop_left]
  have hne : ¬((['/', 'a', 'p', 'p'] : List Char) = ['/']) := by decide
  constructor
  · dsimp only [toLocalRelativeChars]
    have h2 : (if (['/', 'a', 'p', 'p'] : List Char) = ['/']
        then (['/'] : List Char)
        else stripTrailSlash ['/', 'a', 'p', 'p'])
        = ['/', 'a', 'p', 'p'] := by decide
    rw [h2, if_neg hne, if_pos hpre]
    exact hdrop
  · dsimp only [toLocalRelativeChars]
    have h2 : (if (['/', 'a', 'p', 'p', '/'] : List Char) = ['/']
        then (['/'] : List Char)
        else stripTrailSlash ['/', 'a', 'p', 'p', '/'])
        = ['/', 'a', 'p', 'p'] := by decide
    rw [h2, if_neg hne, if_pos hpre]
    exact hdrop

theorem getLast?_cons_of_getLast? {α : Type} (x : α) {l : List α} {a : α}
    (h : l.getLast? = some a) : (x :: l).getLast? = some a := by
  cases l with
  | nil => simp at h
  | cons y t => rw [List.getLast?_cons_cons]; exact h

theorem getLast?_append_right {α : Type} {l2 : List α} {a : α} (l1 : List α)
    (h : l2.getLast? = some a) : (l1 ++ l2).getLast? = some a := by
  induction l1 with
  | nil => exact h
  | cons x t ih => rw [List.cons_append]; exact getLast?_cons_of_getLast? x ih

theorem head?_append_left {α : Type} {l1 : List α} {a : α} (l2 : List α)
    (h : l1.head? = some a) : (l1 ++ l2).head? = some a := by
  cases l1 with
  | nil => simp at h
  | cons x t => simpa using h

theorem runMpremoteGo_head (attempts : Nat → Except String String)
    (args : List String) (k left : Nat) :
    (runMpremoteGo attempts args k left).2.head? = some (.runCmd args) := by
  cases left with
  | zero =>
    unfold runMpremoteGo
    cases attempts k <;> rfl
  | succ n =>
    unfold runMpremoteGo
    cases attempts k with
    | ok o => rfl
    | error e =>
      by_cases ht : transientRetryErr e = true
      · simp [ht]
      · simp [ht]

theorem runMpremoteGo_getLast (attempts : Nat → Except String String)
    (args : List String) :
    ∀ (left k : Nat),
    (runMpremoteGo attempts args k left).2.getLast? = some (.runCmd args) := by
  intro left
  induction left with
  | zero =>
    intro k
    unfold runMpremoteGo
    cases attempts k <;> rfl
  | succ n ih =>
    intro k
    unfold runMpremoteGo
    cases attempts k with
    | ok o => rfl
    | error e =>
      by_cases ht : transientRetryErr e = true
      · simp only [ht, if_true]
        exact getLast?_cons_of_getLast? _ (getLast?_cons_of_getLast? _ (ih (k + 1)))
      · simp [ht]

theorem runMpremoteGo_mem (attempts : Nat → Except String String)
    (args : List String) :
    ∀ (left k : Nat) (eff : Effect),
    eff ∈ (runMpremoteGo attempts args k left).2 →
    eff = .runCmd args ∨ ∃ m, eff = .sleep m := by
  intro left
  induction left with
  | zero =>
    intro k eff h
    unfold runMpremoteGo at h
    cases hA : attempts k <;> rw [hA] at h <;> simp at h <;> exact Or.inl h
  | succ n ih =>
    intro k eff h
    unfold runMpremoteGo at h
    cases hA : attempts k with
    | ok o =>
      rw [hA] at h
      simp at h
      exact Or.inl h
    | error e =>
      rw [hA] at h
      by_cases ht : transientRetryErr e = true
      · simp only [ht, if_true, List.mem_cons] at h
        rcases h with rfl | rfl | h
        · exact Or.inl rfl
        · exact Or.inr ⟨_, rfl⟩
        · exact ih (k + 1) eff h
      · simp [ht] at h
        exact Or.inl h

theorem runMpremoteGo_error_const {e : String}
    (attempts : Nat → Except String String) (args : List String)
    (hA : ∀ k, attempts k = .error e) :
    ∀ (left k : Nat), (runMpremoteGo attempts args k left).1 = .error e := by
  intro left
  induction left with
  | zero => intro k; unfold runMpremoteGo; rw [hA k]
  | succ n ih =>
    intro k
    unfold runMpremoteGo
    rw [hA k]
    by_cases ht : transientRetryErr e = true
    · simp [ht, ih (k + 1)]
    · simp [ht]

theorem runMpremoteGo_error_nontransient {e : String}
    (attempts : Nat → Except String String) (args : List String)
    (k left : Nat) (h : attempts k = .error e)
    (ht : transientRetryErr e = false) :
    runMpremoteGo attempts args k left = (.error e, [.runCmd args]) := by
  cases left <;> (unfold runMpremoteGo; rw [h]; try simp [ht])

theorem callW_ok {w : World} {args : List String} {o : String} (r : Bool)
    (h : w.call args = .ok o) : callW w r args = (.ok o, [.runCmd args]) := by
  cases r <;> unfold callW runMpremote <;> unfold runMpremoteGo <;> simp [h]

theorem callW_error_fst {w : World} {args : List String} {e : String}
    (r : Bool) (h : w.call args = .error e) :
    (callW w r args).1 = .error e := by
  unfold callW runMpremote
  exact runMpremoteGo_error_const (fun _ => w.call args) args
    (fun _ => h) _ 1

theorem callW_error_nontransient {w : World} {args : List String} {e : String}
    (r : Bool) (h : w.call args = .error e)
    (ht : transientRetryErr e = false) :
    callW w r args = (.error e, [.runCmd args]) := by
  unfold callW runMpremote
  exact runMpremoteGo_error_nontransient (fun _ => w.call args) args 1 _ h ht

theorem runMpremoteGo_spec (attempts : Nat → Except String String)
    (args : List String) :
    ∀ (left k : Nat),
    ∃ n, k ≤ n ∧ n ≤ k + left ∧
      (runMpremoteGo attempts args k left).1 = attempts n ∧
      runsOf (runMpremoteGo attempts args k left).2
        = List.replicate (n - k + 1) args ∧
      sleepsOf (runMpremoteGo attempts args k left).2
        = (List.range' k (n - k)).map (fun j => 500 * j) ∧
      (∀ j, k ≤ j → j < n →
        ∃ e, attempts j = .error e ∧ transientRetryErr e = true) ∧
      (∀ e, attempts n = .error e →
        n = k + left ∨ transientRetryErr e = false) := by
  intro left
  induction left with
  | zero =>
    intro k
    refine ⟨k, Nat.le_refl k, by omega, ?_, ?_, ?_, ?_, ?_⟩
    · unfold runMpremoteGo
      cases attempts k <;> rfl
    · unfold runMpremoteGo
      cases attempts k <;> simp [runsOf]
    · unfold runMpremoteGo
      cases attempts k <;> simp [sleepsOf]
    · intro j h1 h2; omega
    · intro e _; exact Or.inl (by omega)
  | succ m ih =>
    intro k
    cases hA : attempts k with
    | ok o =>
      refine ⟨k, Nat.le_refl k, by omega, ?_, ?_, ?_, ?_, ?_⟩
      · unfold runMpremoteGo
        rw [hA]
      · unfold runMpremoteGo
        rw [hA]
        simp [runsOf]
      · unfold runMpremoteGo
        rw [hA]
        simp [sleepsOf]
      · intro j h1 h2; omega
      · intro e he; rw [hA] at he; exact absurd he (by simp)
    | error e =>
      by_cases ht : transientRetryErr e = true
      · obtain ⟨n, hkn, hnle, hres, hruns, hsleeps, htrans, hfin⟩ := ih (k + 1)
        refine ⟨n, by omega, by omega, ?_, ?_, ?_, ?_, ?_⟩
        · unfold runMpremoteGo
          rw [hA]
          simp [ht, hres]
        · unfold runMpremoteGo
          rw [hA]
          simp only [ht, if_true]
          have harith : n - k + 1 = (n - (k + 1) + 1) + 1 := by omega
          simp [runsOf, harith, List.replicate_succ]
          simpa [runsOf] using hruns
        · unfold runMpremoteGo
          rw [hA]
          simp only [ht, if_true]
          have harith : n - k = (n - (k + 1)) + 1 := by omega
          rw [harith, List.range'_succ]
          simp [sleepsOf]
          simpa [sleepsOf] using hsleeps
        · intro j h1 h2
          rcases Nat.eq_or_lt_of_le h1 with rfl | hlt
          · exact ⟨e, hA, ht⟩
          · exact htrans j hlt h2
        · intro e' he'
          rcases hfin e' he' with h | h
          · exact Or.inl (by omega)
          · exact Or.inr h
      · refine ⟨k, Nat.le_refl k, by omega, ?_, ?_, ?_, ?_, ?_⟩
        · unfold runMpremoteGo
          rw [hA]
          simp [ht]
        · unfold runMpremoteGo
          rw [hA]
          simp [ht, runsOf]
        · unfold runMpremoteGo
          rw [hA]
          simp [ht, sleepsOf]
        · intro j h1 h2; omega
        · intro e' he'
          rw [hA] at he'
          cases he'
          exact Or.inr (by simpa using ht)

theorem callW_fst (w : World) (r : Bool) (args : List String) :
    (callW w r args).1 = w.call args := by
  unfold callW runMpremote
  obtain ⟨n, _, _, hres, _⟩ :=
    runMpremoteGo_spec (fun _ => w.call args) args (if r then 2 else 0) 1
  exact hres

theorem callW_head (w : World) (r : Bool) (args : List String) :
    (callW w r args).2.head? = some (.runCmd args) := by
  unfold callW runMpremote
  exact runMpremoteGo_head _ args 1 _

theorem runsOf_mem_iff {a : List String} {tr : List Effect} :
    a ∈ runsOf tr ↔ Effect.runCmd a ∈ tr := by
  unfold runsOf
  rw [List.mem_filterMap]
  constructor
  · rintro ⟨e, he, hfe⟩
    cases e with
    | runCmd b =>
      simp only [Option.some.injEq] at hfe
      subst hfe
      exact he
    | sleep m => exact Option.noConfusion hfe
    | clearCache => exact Option.noConfusion hfe
  · intro h
    exact ⟨.runCmd a, h, rfl⟩

theorem runsOf_append (l1 l2 : List Effect) :
    runsOf (l1 ++ l2) = runsOf l1 ++ runsOf l2 := by
  unfold runsOf
  exact List.filterMap_append _ _ _

theorem mem_runsOf_callW {a : List String} (w : World) (r : Bool)
    (args : List String) (h : a ∈ runsOf (callW w r args).2) : a = args := by
  have hm := runsOf_mem_iff.mp h
  unfold callW runMpremote at hm
  rcases runMpremoteGo_mem (fun _ => w.call args) args _ 1 _ hm
    with h1 | ⟨m, h1⟩
  · exact Effect.runCmd.inj h1
  · exact absurd h1 (by simp)

theorem mem_runsOf_callW_eq {a : List String} {w : World} {r : Bool}
    {args : List String} {res : Except String String} {tr : List Effect}
    (heq : callW w r args = (res, tr)) (h : a ∈ runsOf tr) : a = args := by
  apply mem_runsOf_callW w r args
  rw [heq]
  exact h

theorem mem_foldl_append {β : Type} (f : β → List Effect) :
    ∀ (l : List β) (init : List Effect) (x : Effect),
    x ∈ l.foldl (fun tr b => tr ++ f b) init →
    x ∈ init ∨ ∃ b, b ∈ l ∧ x ∈ f b := by
  intro l
  induction l with
  | nil => intro init x h; exact Or.inl h
  | cons b rest ih =>
    intro init x h
    simp only [List.foldl_cons] at h
    rcases ih (init ++ f b) x h with h2 | ⟨b2, hb2, hx⟩
    · rcases List.mem_append.mp h2 with h3 | h3
      · exact Or.inl h3
      · exact Or.inr ⟨b, List.mem_cons_self b rest, h3⟩
    · exact Or.inr ⟨b2, List.mem_cons_of_mem _ hb2, hx⟩

theorem mem_runsOf_mkLevels {a : List String} (c : String) (w : World)
    (parts : List String) (h : a ∈ runsOf (mkLevels c w parts)) :
    ∃ i, a = ["connect", c, "fs", "mkdir", "/" ++ joinSlash (parts.take i)] := by
  have hm := runsOf_mem_iff.mp h
  unfold mkLevels at hm
  rcases mem_foldl_append _ _ _ _ hm with h1 | ⟨i, _, hx⟩
  · exact absurd h1 (by simp)
  · exact ⟨i, mem_runsOf_callW w false _ (runsOf_mem_iff.mpr hx)⟩

theorem runsOf_first (statA : List String) (tr2 rest : List Effect) :
    (runsOf (([Effect.runCmd statA] ++ tr2) ++ rest)).head? = some statA := by
  simp [runsOf]

theorem runsOf_second (statA rmA : List String) (tr2 rest : List Effect)
    (h2 : tr2.head? = some (.runCmd rmA)) :
    (runsOf (([Effect.runCmd statA] ++ tr2) ++ rest)).get? 1 = some rmA := by
  cases tr2 with
  | nil => exact absurd h2 (by simp)
  | cons x t =>
    simp only [List.head?_cons, Option.some.injEq] at h2
    subst h2
    simp [runsOf]

theorem chain_lt_map500 :
    ∀ (m s : Nat), List.Chain' (fun a b => a < b)
      ((List.range' s m).map (fun j => 500 * j)) := by
  intro m
  induction m with
  | zero => intro s; simp
  | succ k ih =>
    intro s
    rw [List.range'_succ, List.map_cons]
    cases k with
    | zero => simp
    | succ k2 =>
      rw [List.range'_succ, List.map_cons]
      refine List.chain'_cons.mpr ⟨by omega, ?_⟩
      rw [← List.map_cons, ← List.range'_succ]
      exact ih (s + 1)

theorem deleteAnyCatch_trace (w : World) (c : String) (fuel : Nat)
    (p e : String) (tr : List Effect) :
    ∃ rest, (deleteAnyCatch w c fuel p e tr).2 = tr ++ rest := by
  unfold deleteAnyCatch
  split
  · split
    next u tr2 heq => exact ⟨tr2 ++ [Effect.clearCache], by simp⟩
    next e2 tr2 heq => exact ⟨tr2, rfl⟩
  · exact ⟨[], by simp⟩

theorem ddr_success_last (w : World) (c : String) (fuel : Nat) (p : String)
    (h : (deleteDirectoryRecursiveOp w c fuel p).1 = .ok ()) :
    (runsOf (deleteDirectoryRecursiveOp w c fuel p).2).getLast?
      = some ["connect", c, "fs", "rmdir", p] := by
  cases fuel with
  | zero => exact absurd h (by simp [deleteDirectoryRecursiveOp])
  | succ f =>
    unfold deleteDirectoryRecursiveOp at h ⊢
    split at h
    next e tr heq => exact Except.noConfusion h
    next out tr heq =>
      split at h
      next o3 tr3 heq3 =>
        dsimp only at h ⊢
        split at h
        next e2 tr2 heq2 => exact Except.noConfusion h
        next u tr2 heq2 =>
          have h3 : w.call ["connect", c, "fs", "rmdir", p] = .ok o3 := by
            rw [← callW_fst w true ["connect", c, "fs", "rmdir", p], heq3]
          have h4 := callW_ok true h3
          rw [heq3] at h4
          injection h4 with h4a h4b
          subst h4b
          rw [runsOf_append]
          exact getLast?_append_right _ (by simp [runsOf])
      next e3 tr3 heq3 =>
        dsimp only at h
        split at h
        next e2 tr2 heq2 => exact Except.noConfusion h
        next u tr2 heq2 => exact Except.noConfusion h

theorem getFileInfoOp_ok (cfg : String) (w : World) (p out : String)
    (hb : badConnect (effConnect cfg) = false)
    (hstat : w.call ["connect", effConnect cfg, "fs", "stat", pathArgOf p]
      = .ok out) :
    getFileInfoOp cfg w p = (.ok (statInfoOf out),
      [.runCmd ["connect", effConnect cfg, "fs", "stat", pathArgOf p]]) := by
  unfold getFileInfoOp statInfoOf
  rw [if_neg (by simp [hb])]
  rw [callW_ok true hstat]
  by_cases hlen : (splitWs (jsTrim out)).length ≥ 4
  · simp [hlen]
  · simp [hlen]

theorem statInfoOf_isDir (out : String) :
    ((statInfoOf out).map (fun i => i.isDir)).getD false = statIsDirOf out := by
  unfold statInfoOf statIsDirOf
  by_cases hlen : (splitWs (jsTrim out)).length ≥ 4
  · simp [hlen]
  · simp [hlen]

end MpyWorkbench

namespace MpyWorkbench

/-- C1: over the spec's example scenario the classification is exactly as
claimed (changed = /lib/a.py, remote-only = /extra.py, no local-only), but
size equality is not the sole criterion for paths present on both sides:
a 0-byte file present with size 0 on both sides is classified as changed,
because `localFileSizes.get(rel) || -1` coerces the stored size 0 to -1. -/
theorem checkDiffs_scenario_and_zero_size_bug :
    (checkDiffsModel "/" ["main.py", "lib/a.py"]
        (fun s => if s = "main.py" then some 10
                  else if s = "lib/a.py" then some 5 else none)
        [("/main.py", ⟨10, false⟩), ("/lib/a.py", ⟨7, false⟩),
         ("/extra.py", ⟨3, false⟩)]
        (fun _ _ => false)
      = { diffSet := ["/lib/a.py"], localOnlySet := [],
          boardOnlySet := ["/extra.py"] })
    ∧ (checkDiffsModel "/" ["a.py"]
        (fun s => if s = "a.py" then some 0 else none)
        [("/a.py", ⟨0, false⟩)]
        (fun _ _ => false)
      = { diffSet := ["/a.py"], localOnlySet := [], boardOnlySet := [] }) := by
  constructor <;> rfl

/-- C2: over any file list and any pattern of local-existence and copy
outcomes, the baseline upload loop attempts a copy for every valid file that
still exists at its re-check (independently of other files' failures), the
failure count equals the number of files whose copy failed or that vanished
mid-batch, the tally covers every valid file, and first-check-missing files
are only skipped into the warning list; the phase is a total function
returning a report, so partial failure never raises. -/
theorem syncBaseline_partial_failure_tolerance (files : List String)
    (env : SyncFileEnv) :
    (syncBaselineUploads files env).attemptedCopies
        = (files.filter env.exists1).filter (fun x => env.exists2 x)
    ∧ (syncBaselineUploads files env).failed
        = ((files.filter env.exists1).filter
            (fun x => !env.exists2 x || !env.copyOk x)).length
    ∧ (syncBaselineUploads files env).uploaded
        = ((files.filter env.exists1).filter
            (fun x => env.exists2 x && env.copyOk x)).length
    ∧ (syncBaselineUploads files env).uploaded
        + (syncBaselineUploads files env).failed
        = (files.filter env.exists1).length
    ∧ (syncBaselineUploads files env).missingFiles
        = files.filter (fun f => !env.exists1 f) := by
  have h := uploadLoop_spec env (files.filter env.exists1) 0 0 []
  have hfun : (fun x => !env.exists2 x || !env.copyOk x)
      = (fun x => !(env.exists2 x && env.copyOk x)) := by
    funext x
    cases env.exists2 x <;> cases env.copyOk x <;> rfl
  refine ⟨?_, ?_, ?_, ?_, rfl⟩
  · simp [syncBaselineUploads, h]
  · simp [syncBaselineUploads, h]
  · simp [syncBaselineUploads, h]
  · simp only [syncBaselineUploads, h]
    rw [hfun]
    have hsplit := length_filter_split
      (fun x => env.exists2 x && env.copyOk x) (files.filter env.exists1)
    omega

/-- C3: for any remote root and any file list (paths as posix segment
lists), the directory-creation plan contains every ancestor directory of
every file's destination that lies strictly below the root, the plan is
sorted by depth ascending, and an ancestor always precedes its descendant
in the plan. -/
theorem syncBaseline_directoryPlan_ordered (root : List String)
    (files : List (List String)) :
    (∀ f ∈ files, ∀ d : List String, root <+: d → d ≠ root →
        d <+: (root ++ f).dropLast → d ∈ sortedDirectories root files)
    ∧ List.Sorted (fun a b : List String => a.length ≤ b.length)
        (sortedDirectories root files)
    ∧ (∀ i j : Fin (sortedDirectories root files).length,
        (sortedDirectories root files).get i
          <+: (sortedDirectories root files).get j →
        (sortedDirectories root files).get i
          ≠ (sortedDirectories root files).get j → i < j) := by
  refine ⟨?_, ?_, ?_⟩
  · intro f hf d hrd hdr hds
    unfold sortedDirectories
    rw [List.mem_insertionSort]
    unfold allDirectoriesFor
    exact mem_allDirectoriesFor [] (Or.inr ⟨f, hf, hrd, hdr, hds⟩)
  · exact List.sorted_insertionSort _ _
  · intro i j hpre hne
    have hsor : List.Sorted (fun a b : List String => a.length ≤ b.length)
        (sortedDirectories root files) := List.sorted_insertionSort _ _
    have hlen : ((sortedDirectories root files).get i).length
        < ((sortedDirectories root files).get j).length :=
      Nat.lt_of_le_of_ne hpre.length_le
        (fun he => hne (hpre.eq_of_length he))
    rcases Nat.lt_trichotomy i.val j.val with hij | hij | hij
    · exact Fin.lt_def.mpr hij
    · exact absurd
        (congrArg (sortedDirectories root files).get (Fin.ext hij)) hne
    · have hrel := hsor.rel_get_of_lt (a := j) (b := i) (Fin.lt_def.mpr hij)
      exact absurd hrel (Nat.not_le.mpr hlen)

/-- Witness for C3 at the spec's example: files `a/b/c/file.py` and
`a/file2.py` under root `/` yield a plan containing `/a/b`, with `/a`
created strictly before `/a/b`. -/
theorem syncBaseline_directoryPlan_ordered_witness :
    ["a", "b"] ∈ sortedDirectories []
        [["a", "b", "c", "file.py"], ["a", "file2.py"]]
    ∧ Fin.mk (n := (sortedDirectories []
          [["a", "b", "c", "file.py"], ["a", "file2.py"]]).length)
        0 (by decide)
      < Fin.mk 1 (by decide) := by
  have h := syncBaseline_directoryPlan_ordered []
    [["a", "b", "c", "file.py"], ["a", "file2.py"]]
  constructor
  · exact h.1 ["a", "b", "c", "file.py"] (by decide) ["a", "b"]
      (by decide) (by decide) (by decide)
  · exact h.2.2 (Fin.mk 0 (by decide)) (Fin.mk 1 (by decide))
      (by decide) (by decide)

/-- C4: for any relative path of the form `x/y.py` (two nonempty slash-free
segments) and remote root `/`, `/app` or `/app/`, mapping the device path to
a local-relative path and back is the identity (the root's trailing slash is
normalized away by both directions). -/
theorem pathMapping_roundTrip (a b : List Char) (_ha : a ≠ []) (hb : b ≠ [])
    (hsa : '/' ∉ a) (hsb : '/' ∉ b) :
    (toDevicePath (toLocalRelative (String.mk ('/' :: (a ++ '/' :: b))) "/") "/"
      = String.mk ('/' :: (a ++ '/' :: b)))
    ∧ (toDevicePath (toLocalRelative
          (String.mk (['/', 'a', 'p', 'p', '/'] ++ (a ++ '/' :: b)))
          "/app") "/app"
      = String.mk (['/', 'a', 'p', 'p', '/'] ++ (a ++ '/' :: b)))
    ∧ (toDevicePath (toLocalRelative
          (String.mk (['/', 'a', 'p', 'p', '/'] ++ (a ++ '/' :: b)))
          "/app/") "/app/"
      = String.mk (['/', 'a', 'p', 'p', '/'] ++ (a ++ '/' :: b))) := by
  have hrelne : (a ++ '/' :: b) ≠ [] := by simp
  have hcol := collapse_seg a b hsa hsb
  have hstr := stripTrail_seg a b hb hsb
  have hdev1 : toDevicePathChars (a ++ '/' :: b) ['/']
      = '/' :: (a ++ '/' :: b) := by
    dsimp only [toDevicePathChars]
    rw [hcol, hstr]
    have hroot : stripTrailSlash (collapseSlashes ['/']) = [] := by decide
    rw [hroot]
    have h0 : ([] : List Char) = [] := rfl
    rw [if_pos h0]
  have hdev2 : toDevicePathChars (a ++ '/' :: b) ['/', 'a', 'p', 'p']
      = ['/', 'a', 'p', 'p'] ++ '/' :: (a ++ '/' :: b) := by
    dsimp only [toDevicePathChars]
    rw [hcol, hstr]
    have hroot : stripTrailSlash (collapseSlashes ['/', 'a', 'p', 'p'])
        = ['/', 'a', 'p', 'p'] := by decide
    rw [hroot, if_neg (by decide), if_neg hrelne]
  have hdev3 : toDevicePathChars (a ++ '/' :: b) ['/', 'a', 'p', 'p', '/']
      = ['/', 'a', 'p', 'p'] ++ '/' :: (a ++ '/' :: b) := by
    dsimp only [toDevicePathChars]
    rw [hcol, hstr]
    have hroot : stripTrailSlash (collapseSlashes ['/', 'a', 'p', 'p', '/'])
        = ['/', 'a', 'p', 'p'] := by decide
    rw [hroot, if_neg (by decide), if_neg hrelne]
  have happ : (['/', 'a', 'p', 'p'] : List Char) ++ '/' :: (a ++ '/' :: b)
      = ['/', 'a', 'p', 'p', '/'] ++ (a ++ '/' :: b) := rfl
  refine ⟨?_, ?_, ?_⟩
  · show String.mk (toDevicePathChars
        (toLocalRelativeChars ('/' :: (a ++ '/' :: b)) ['/']) ['/']) = _
    rw [toLocalRelativeChars_root_slash]
    exact congrArg String.mk hdev1
  · show String.mk (toDevicePathChars
        (toLocalRelativeChars (['/', 'a', 'p', 'p', '/'] ++ (a ++ '/' :: b))
          ['/', 'a', 'p', 'p']) ['/', 'a', 'p', 'p']) = _
    rw [(toLocalRelativeChars_root_app _).1]
    exact congrArg String.mk (hdev2.trans happ)
  · show String.mk (toDevicePathChars
        (toLocalRelativeChars (['/', 'a', 'p', 'p', '/'] ++ (a ++ '/' :: b))
          ['/', 'a', 'p', 'p', '/']) ['/', 'a', 'p', 'p', '/']) = _
    rw [(toLocalRelativeChars_root_app _).2]
    exact congrArg String.mk (hdev3.trans happ)

/-- Witness for C4 at the spec's example segments `x` and `y.py`. -/
theorem pathMapping_roundTrip_witness :
    toDevicePath (toLocalRelative "/x/y.py" "/") "/" = "/x/y.py"
    ∧ toDevicePath (toLocalRelative "/app/x/y.py" "/app") "/app"
      = "/app/x/y.py"
    ∧ toDevicePath (toLocalRelative "/app/x/y.py" "/app/") "/app/"
      = "/app/x/y.py" := by
  have h := pathMapping_roundTrip ['x'] ['y', '.', 'p', 'y']
    (by decide) (by decide) (by decide) (by decide)
  have e1 : String.mk ('/' :: (['x'] ++ '/' :: ['y', '.', 'p', 'y']))
      = "/x/y.py" := by decide
  have e2 : String.mk (['/', 'a', 'p', 'p', '/']
        ++ (['x'] ++ '/' :: ['y', '.', 'p', 'y']))
      = "/app/x/y.py" := by decide
  refine ⟨?_, ?_, ?_⟩
  · rw [← e1]; exact h.1
  · rw [← e2]; exact h.2.1
  · rw [← e2]; exact h.2.2

theorem mem_clearCache_append (l : List Effect) :
    Effect.clearCache ∈ l ++ [Effect.clearCache] := by simp

theorem cacheInv_catch (w : World) (c : String) (fuel : Nat) (p e : String)
    (tr : List Effect) (h : (deleteAnyCatch w c fuel p e tr).1 = .ok ()) :
    Effect.clearCache ∈ (deleteAnyCatch w c fuel p e tr).2 := by
  unfold deleteAnyCatch at h ⊢
  split at h
  next hd =>
    split at h
    next u tr2 heq => simp [hd, heq]
    next e2 tr2 heq => exact Except.noConfusion h
  next hd => exact Except.noConfusion h

theorem cacheInv_readOnlyRecovery (c : String) (w : World)
    (cpArgs : List String) (h : (cpReadOnlyRecovery c w cpArgs).1 = true) :
    Effect.clearCache ∈ (cpReadOnlyRecovery c w cpArgs).2 := by
  unfold cpReadOnlyRecovery at h ⊢
  rcases hr1 : callW w false ["connect", c, "reset"] with ⟨r1, trA⟩
  rcases hr2 : callW w false ["connect", c, "exec",
      "import os; os.umount('/'); os.mount(os.VfsFat(os.sdcard()), '/')"]
    with ⟨r2, trB⟩
  rcases hr3 : callW w false cpArgs with ⟨r3, trC⟩
  rw [hr1, hr2, hr3] at h
  cases r1 <;> cases r2 <;> cases r3 <;> simp_all

/-- C5 (amended): every remote-mutating operation actually used by the
extension's flows — `mkdir`, `cpToDevice`, `uploadReplacing`, `deleteAny`,
`mvOnDevice` — invalidates the in-memory remote tree cache before
returning whenever it succeeds; the exported but uncalled `deleteFile`
helper is the exception (see the counterexample). -/
theorem mutating_ops_invalidate_cache (cfg : String) (w : World)
    (p src dst lp dp : String) (fuel : Nat) :
    ((mkdirOp cfg w p).1 = .ok () →
      Effect.clearCache ∈ (mkdirOp cfg w p).2)
    ∧ ((cpToDeviceOp cfg w lp dp).1 = .ok () →
      Effect.clearCache ∈ (cpToDeviceOp cfg w lp dp).2)
    ∧ ((uploadReplacingOp cfg w lp dp).1 = .ok () →
      Effect.clearCache ∈ (uploadReplacingOp cfg w lp dp).2)
    ∧ ((deleteAnyOp cfg w fuel p).1 = .ok () →
      Effect.clearCache ∈ (deleteAnyOp cfg w fuel p).2)
    ∧ ((mvOnDeviceOp cfg w src dst).1 = .ok () →
      Effect.clearCache ∈ (mvOnDeviceOp cfg w src dst).2) := by
  by_cases hb : badConnect (effConnect cfg) = true
  · refine ⟨?_, ?_, ?_, ?_, ?_⟩ <;> intro h <;>
      simp [mkdirOp, cpToDeviceOp, uploadReplacingOp, deleteAnyOp,
        mvOnDeviceOp, hb] at h
  · have hb' : ¬(badConnect (effConnect cfg) = true) := hb
    refine ⟨?_, ?_, ?_, ?_, ?_⟩ <;> intro h
    · simp only [mkdirOp] at h ⊢
      rw [if_neg hb'] at h ⊢
      repeat' first
        | exact Except.noConfusion h
        | split at h
      all_goals simp_all [cacheInv_catch, cacheInv_readOnlyRecovery]
    · simp only [cpToDeviceOp] at h ⊢
      rw [if_neg hb'] at h ⊢
      split at h
      next o tr1 heq => simp [heq]
      next e tr1 heq =>
        split at h
        next o2 tr2 hm =>
          split at hm
          next hmc =>
            split at hm
            next o3 trr heq3 =>
              injection hm with hm1 hm2
              subst hm2
              simp [heq, heq3]
            next e3 trr heq3 => simp at hm
          next hmc => simp at hm
        next tr2 hm =>
          repeat' first
            | exact Except.noConfusion h
            | split at h
          all_goals simp_all [cacheInv_readOnlyRecovery]
    · simp only [uploadReplacingOp] at h ⊢
      rw [if_neg hb'] at h ⊢
      repeat' first
        | exact Except.noConfusion h
        | split at h
      all_goals simp_all [cacheInv_catch, cacheInv_readOnlyRecovery]
    · simp only [deleteAnyOp] at h ⊢
      rw [if_neg hb'] at h ⊢
      repeat' first
        | exact Except.noConfusion h
        | split at h
      all_goals simp_all [cacheInv_catch, cacheInv_readOnlyRecovery]
    · simp only [mvOnDeviceOp] at h ⊢
      rw [if_neg hb'] at h ⊢
      repeat' first
        | exact Except.noConfusion h
        | split at h
      all_goals simp_all [cacheInv_catch, cacheInv_readOnlyRecovery]

/-- Counterexample to C5 as stated: the exported `deleteFile` helper
removes a remote file successfully yet performs no cache invalidation. -/
theorem deleteFile_no_cache_invalidation :
    (deleteFileOp "COM3" ⟨fun _ => .ok ""⟩ "/main.py").1 = .ok ()
    ∧ Effect.clearCache ∉
        (deleteFileOp "COM3" ⟨fun _ => .ok ""⟩ "/main.py").2 := by decide

/-- Witness for the amended C5 at a concrete world where every invocation
succeeds. -/
theorem mutating_ops_invalidate_cache_witness :
    Effect.clearCache ∈ (mkdirOp "COM3" ⟨fun _ => .ok ""⟩ "/lib").2
    ∧ Effect.clearCache ∈
        (deleteAnyOp "COM3" ⟨fun _ => .ok ""⟩ 3 "/lib").2 := by
  have h := mutating_ops_invalidate_cache "COM3" ⟨fun _ => .ok ""⟩
    "/lib" "/a" "/b" "x.py" "/x.py" 3
  exact ⟨h.1 (by decide), h.2.2.2.1 (by decide)⟩

/-- C6: with a concrete port and a successful stat, `deleteAny` stats
first, then issues `fs rm` with `-r` exactly when the stat reports a
directory; a successful removal ends the operation with no fallback; a
failure other than "directory not empty" is surfaced unchanged; a
"directory not empty" failure falls back exactly once to the manual
recursive delete, whose success makes the whole operation succeed with the
`rmdir` of the now-empty directory as the last invocation, and whose
failure is surfaced wrapped. -/
theorem deleteAny_stat_then_rm_fallback (cfg : String) (w : World)
    (fuel : Nat) (p out : String)
    (hb : badConnect (effConnect cfg) = false)
    (hstat : w.call ["connect", effConnect cfg, "fs", "stat", pathArgOf p]
      = .ok out) :
    (runsOf (deleteAnyOp cfg w fuel p).2).head?
      = some ["connect", effConnect cfg, "fs", "stat", pathArgOf p]
    ∧ (runsOf (deleteAnyOp cfg w fuel p).2).get? 1
      = some (rmArgsFor (effConnect cfg) p (statIsDirOf out))
    ∧ (∀ o, w.call (rmArgsFor (effConnect cfg) p (statIsDirOf out)) = .ok o →
      deleteAnyOp cfg w fuel p = (.ok (),
        [.runCmd ["connect", effConnect cfg, "fs", "stat", pathArgOf p],
         .runCmd (rmArgsFor (effConnect cfg) p (statIsDirOf out)),
         .clearCache]))
    ∧ (∀ e, w.call (rmArgsFor (effConnect cfg) p (statIsDirOf out)) = .error e →
      transientRetryErr e = false → dirNotEmptyErr e = false →
      deleteAnyOp cfg w fuel p = (.error e,
        [.runCmd ["connect", effConnect cfg, "fs", "stat", pathArgOf p],
         .runCmd (rmArgsFor (effConnect cfg) p (statIsDirOf out))]))
    ∧ (∀ e, w.call (rmArgsFor (effConnect cfg) p (statIsDirOf out)) = .error e →
      transientRetryErr e = false → dirNotEmptyErr e = true →
      ((∀ u, (deleteDirectoryRecursiveOp w (effConnect cfg) fuel p).1 = .ok u →
        (deleteAnyOp cfg w fuel p).1 = .ok ()
        ∧ (runsOf (deleteAnyOp cfg w fuel p).2).getLast?
            = some ["connect", effConnect cfg, "fs", "rmdir", p])
      ∧ (∀ e2,
        (deleteDirectoryRecursiveOp w (effConnect cfg) fuel p).1 = .error e2 →
        (deleteAnyOp cfg w fuel p).1
          = .error ("Failed to delete directory " ++ p ++ ": " ++ e2)))) := by
  have hbne : ¬(badConnect (effConnect cfg) = true) := by simp [hb]
  have hgfi := getFileInfoOp_ok cfg w p out hb hstat
  refine ⟨?_, ?_, ?_, ?_, ?_⟩
  · simp only [deleteAnyOp]
    rw [if_neg hbne, hgfi]
    dsimp only
    rw [statInfoOf_isDir]
    split
    next o tr2 heq => exact runsOf_first _ _ _
    next e tr2 heq =>
      obtain ⟨rest, hres⟩ := deleteAnyCatch_trace w (effConnect cfg) fuel p e
        ([.runCmd ["connect", effConnect cfg, "fs", "stat", pathArgOf p]]
          ++ tr2)
      rw [hres]
      exact runsOf_first _ _ _
  · simp only [deleteAnyOp]
    rw [if_neg hbne, hgfi]
    dsimp only
    rw [statInfoOf_isDir]
    split
    next o tr2 heq =>
      have h2 := callW_head w true
        (rmArgsFor (effConnect cfg) p (statIsDirOf out))
      rw [heq] at h2
      exact runsOf_second _ _ _ _ h2
    next e tr2 heq =>
      have h2 := callW_head w true
        (rmArgsFor (effConnect cfg) p (statIsDirOf out))
      rw [heq] at h2
      obtain ⟨rest, hres⟩ := deleteAnyCatch_trace w (effConnect cfg) fuel p e
        ([.runCmd ["connect", effConnect cfg, "fs", "stat", pathArgOf p]]
          ++ tr2)
      rw [hres]
      exact runsOf_second _ _ _ _ h2
  · intro o hok
    simp only [deleteAnyOp]
    rw [if_neg hbne, hgfi]
    dsimp only
    rw [statInfoOf_isDir, callW_ok true hok]
    rfl
  · intro e herr htrans hnde
    simp only [deleteAnyOp]
    rw [if_neg hbne, hgfi]
    dsimp only
    rw [statInfoOf_isDir, callW_error_nontransient true herr htrans]
    dsimp only
    unfold deleteAnyCatch
    rw [if_neg (by simp [hnde])]
    rfl
  · intro e herr htrans hnde
    simp only [deleteAnyOp]
    rw [if_neg hbne, hgfi]
    dsimp only
    rw [statInfoOf_isDir, callW_error_nontransient true herr htrans]
    dsimp only
    unfold deleteAnyCatch
    rw [if_pos hnde]
    constructor
    · intro u hddr
      rcases hd : deleteDirectoryRecursiveOp w (effConnect cfg) fuel p
        with ⟨rd, trD⟩
      rw [hd] at hddr
      cases rd with
      | error e2 => exact Except.noConfusion hddr
      | ok u2 =>
        refine ⟨rfl, ?_⟩
        have hlast : (runsOf trD).getLast?
            = some ["connect", effConnect cfg, "fs", "rmdir", p] := by
          have h5 := ddr_success_last w (effConnect cfg) fuel p (by rw [hd])
          rw [hd] at h5
          exact h5
        rw [runsOf_append, runsOf_append]
        rw [show runsOf [Effect.clearCache] = [] from rfl, List.append_nil]
        exact getLast?_append_right _ hlast
    · intro e2 hddr2
      rcases hd : deleteDirectoryRecursiveOp w (effConnect cfg) fuel p
        with ⟨rd, trD⟩
      rw [hd] at hddr2
      cases rd with
      | ok u2 => exact Except.noConfusion hddr2
      | error e3 =>
        have he : e3 = e2 := Except.error.inj hddr2
        subst he
        rfl

/-- Witness for C6 at a world where the stat reports a directory, `fs rm
-r` fails with `OSError: 39`, and the manual fallback succeeds. -/
theorem deleteAny_stat_then_rm_fallback_witness :
    (runsOf (deleteAnyOp "COM3" ⟨fun args =>
        if args = ["connect", "COM3", "fs", "stat", "/d"] then
          .ok "/d 16384 0 0"
        else if args = ["connect", "COM3", "fs", "rm", "-r", "/d"] then
          .error "OSError: 39 directory not empty"
        else .ok ""⟩ 2 "/d").2).head?
      = some ["connect", "COM3", "fs", "stat", "/d"]
    ∧ (deleteAnyOp "COM3" ⟨fun args =>
        if args = ["connect", "COM3", "fs", "stat", "/d"] then
          .ok "/d 16384 0 0"
        else if args = ["connect", "COM3", "fs", "rm", "-r", "/d"] then
          .error "OSError: 39 directory not empty"
        else .ok ""⟩ 2 "/d").1 = .ok ()
    ∧ (runsOf (deleteAnyOp "COM3" ⟨fun args =>
        if args = ["connect", "COM3", "fs", "stat", "/d"] then
          .ok "/d 16384 0 0"
        else if args = ["connect", "COM3", "fs", "rm", "-r", "/d"] then
          .error "OSError: 39 directory not empty"
        else .ok ""⟩ 2 "/d").2).getLast?
      = some ["connect", "COM3", "fs", "rmdir", "/d"] := by
  have h := deleteAny_stat_then_rm_fallback "COM3" ⟨fun args =>
      if args = ["connect", "COM3", "fs", "stat", "/d"] then
        .ok "/d 16384 0 0"
      else if args = ["connect", "COM3", "fs", "rm", "-r", "/d"] then
        .error "OSError: 39 directory not empty"
      else .ok ""⟩ 2 "/d" "/d 16384 0 0" (by decide) (by decide)
  have h5 := (h.2.2.2.2 "OSError: 39 directory not empty" (by decide)
    (by decide) (by decide)).1 () (by decide)
  exact ⟨h.1, h5.1, h5.2⟩

/-- C7: a failed invocation is retried at most twice (not at all when
retries are disabled), each retry is preceded by a strictly increasing
backoff delay, only transiently-failing attempts are retried, a
non-transient error stops retrying immediately, and on a dead transport
the remote listing operations (`listTreeStats`, `lsTyped`) reject with the
error instead of resolving (in particular never with an empty listing). -/
theorem runMpremote_retry_contract (cfg root p e0 : String) (w : World)
    (attempts : Nat → Except String String) (args : List String)
    (hdead : ∀ a, w.call a = .error e0)
    (hb : badConnect (effConnect cfg) = false) :
    (∃ n, 1 ≤ n ∧ n ≤ 3 ∧
      (runMpremote attempts args true).1 = attempts n ∧
      runsOf (runMpremote attempts args true).2 = List.replicate n args ∧
      sleepsOf (runMpremote attempts args true).2
        = (List.range' 1 (n - 1)).map (fun j => 500 * j) ∧
      (∀ j, 1 ≤ j → j < n →
        ∃ e, attempts j = .error e ∧ transientRetryErr e = true))
    ∧ List.Chain' (fun a b => a < b)
        (sleepsOf (runMpremote attempts args true).2)
    ∧ runMpremote attempts args false = (attempts 1, [.runCmd args])
    ∧ (∀ e, attempts 1 = .error e → transientRetryErr e = false →
        runMpremote attempts args true = (.error e, [.runCmd args]))
    ∧ (listTreeStatsOp cfg none w root).1 = .error e0
    ∧ (∀ l, (listTreeStatsOp cfg none w root).1 ≠ .ok l)
    ∧ (lsTypedOp cfg none w p).1 = .error e0 := by
  have hgo : runMpremote attempts args true
      = runMpremoteGo attempts args 1 2 := rfl
  obtain ⟨n, h1, h2, hres, hruns, hsleeps, htrans, hfin⟩ :=
    runMpremoteGo_spec attempts args 2 1
  have hn1 : n - 1 + 1 = n := by omega
  rw [hn1] at hruns
  have hlist : (listTreeStatsOp cfg none w root).1 = .error e0 := by
    simp only [listTreeStatsOp]
    rw [if_neg (by simp [hb])]
    have hfst := callW_fst w true
      (["connect", effConnect cfg, "fs", "tree"] ++
        (if root ≠ "" && root ≠ "/" then [root] else []))
    rw [hdead] at hfst
    split
    next out tr heq =>
      rw [heq] at hfst
      exact Except.noConfusion hfst
    next e tr heq =>
      rw [heq] at hfst
      have he : e = e0 := Except.error.inj hfst
      subst he
      rfl
  have hls : (lsTypedOp cfg none w p).1 = .error e0 := by
    have hfst := callW_fst w true ["connect", effConnect cfg, "fs", "tree"]
    rw [hdead] at hfst
    simp only [lsTypedOp]
    rcases hcw : callW w true ["connect", effConnect cfg, "fs", "tree"]
      with ⟨r, tr⟩
    rw [hcw] at hfst
    have hr : r = .error e0 := hfst
    subst hr
    rfl
  refine ⟨⟨n, h1, by omega, ?_, ?_, ?_, htrans⟩, ?_, ?_, ?_, hlist, ?_, hls⟩
  · rw [hgo]
    exact hres
  · rw [hgo]
    exact hruns
  · rw [hgo]
    exact hsleeps
  · rw [hgo, hsleeps]
    exact chain_lt_map500 _ _
  · cases hA : attempts 1 <;> simp [runMpremote, runMpremoteGo, hA]
  · intro e hA ht
    rw [hgo]
    exact runMpremoteGo_error_nontransient attempts args 1 2 hA ht
  · intro l hl
    rw [hlist] at hl
    exact Except.noConfusion hl

/-- Witness for C7: a no-retry invocation surfaces the first error, and a
dead transport makes both listing operations reject. -/
theorem runMpremote_retry_contract_witness :
    runMpremote
        (fun k => if k = 1 then .error "connection timeout" else .ok "done")
        ["a"] false
      = (.error "connection timeout", [.runCmd ["a"]])
    ∧ (listTreeStatsOp "COM3" none
        ⟨fun _ => .error "serial read failed"⟩ "/").1
      = .error "serial read failed"
    ∧ (lsTypedOp "COM3" none ⟨fun _ => .error "serial read failed"⟩ "/lib").1
      = .error "serial read failed" := by
  have h := runMpremote_retry_contract "COM3" "/" "/lib" "serial read failed"
    ⟨fun _ => .error "serial read failed"⟩
    (fun k => if k = 1 then .error "connection timeout" else .ok "done")
    ["a"] (fun a => rfl) (by decide)
  exact ⟨h.2.2.1, h.2.2.2.2.1, h.2.2.2.2.2.2⟩

/-- C8 (amended): every modeled operation except `lsTyped` validates the
port first: with an empty or `"auto"` connect string it fails with the
typed error before any invocation (empty result trace); `lsTyped` performs
no such validation (see the counterexample). -/
theorem ops_reject_nonconcrete_port (cfg : String) (w : World)
    (p src dst lp dp root : String) (fuel : Nat)
    (cacheFile : Option (List (String × Bool)))
    (hb : badConnect (effConnect cfg) = true) :
    mkdirOp cfg w p = (.error portErr, [])
    ∧ cpFromDeviceOp cfg w dp lp = (.error portErr, [])
    ∧ cpToDeviceOp cfg w lp dp = (.error portErr, [])
    ∧ uploadReplacingOp cfg w lp dp = (.error portErr, [])
    ∧ deleteFileOp cfg w p = (.error portErr, [])
    ∧ deleteAnyOp cfg w fuel p = (.error portErr, [])
    ∧ fileExistsOp cfg w p = (.error portErr, [])
    ∧ getFileInfoOp cfg w p = (.error portErr, [])
    ∧ mvOnDeviceOp cfg w src dst = (.error portErr, [])
    ∧ listTreeStatsOp cfg cacheFile w root = (.error portErr, []) := by
  refine ⟨?_, ?_, ?_, ?_, ?_, ?_, ?_, ?_, ?_, ?_⟩ <;>
    simp [mkdirOp, cpFromDeviceOp, cpToDeviceOp, uploadReplacingOp,
      deleteFileOp, deleteAnyOp, fileExistsOp, getFileInfoOp, mvOnDeviceOp,
      listTreeStatsOp, hb]

/-- Counterexample to C8 as stated: `lsTyped` — the directory listing —
performs no port validation; with the default `"auto"` connect string it
goes straight to an `fs tree` invocation instead of failing with the typed
error. -/
theorem lsTyped_auto_invokes_tool :
    (lsTypedOp "auto" none ⟨fun _ => .error "boom"⟩ "/").2
      = [.runCmd ["connect", "auto", "fs", "tree"]]
    ∧ (lsTypedOp "auto" none ⟨fun _ => .error "boom"⟩ "/").1
      ≠ .error portErr := by decide

/-- Witness for the amended C8 at the two non-concrete connect strings. -/
theorem ops_reject_nonconcrete_port_witness :
    mkdirOp "" ⟨fun _ => .ok ""⟩ "/lib" = (.error portErr, [])
    ∧ deleteAnyOp "auto" ⟨fun _ => .ok ""⟩ 1 "/x" = (.error portErr, []) := by
  have h1 := ops_reject_nonconcrete_port "" ⟨fun _ => .ok ""⟩
    "/lib" "/a" "/b" "x.py" "/x.py" "/" 1 none (by decide)
  have h2 := ops_reject_nonconcrete_port "auto" ⟨fun _ => .ok ""⟩
    "/x" "/a" "/b" "x.py" "/x.py" "/" 1 none (by decide)
  exact ⟨h1.1, h2.2.2.2.2.2.1⟩

/-- C9 (amended): `uploadReplacing` — the replacing upload path — always
issues its copy with the force flag: every `fs cp` invocation in its trace
carries `-f` directly after `cp`. The plain `cpToDevice` upload does not
(see the counterexample). -/
theorem uploadReplacing_always_forces (cfg : String) (w : World)
    (lp dp : String) :
    ∀ a ∈ runsOf (uploadReplacingOp cfg w lp dp).2,
      a.get? 3 = some "cp" → a.get? 4 = some "-f" := by
  intro a ha hcp
  simp only [uploadReplacingOp] at ha
  by_cases hb : badConnect (effConnect cfg) = true
  · rw [if_pos hb] at ha
    simp [runsOf] at ha
  · rw [if_neg hb] at ha
    repeat' split at ha
    all_goals try simp only [runsOf_append, List.mem_append] at ha
    all_goals repeat' rcases ha with ha | ha
    all_goals
      first
        | (simp [runsOf] at ha
           done)
        | (have hE := mem_runsOf_callW _ _ _ ha
           subst hE
           first
             | rfl
             | simp at hcp)
        | (have hE := mem_runsOf_callW_eq (by assumption) ha
           subst hE
           first
             | rfl
             | simp at hcp)
        | (obtain ⟨i, hE⟩ := mem_runsOf_mkLevels _ _ _ ha
           subst hE
           simp at hcp)

/-- Counterexample to C9 as stated: `cpToDevice` — the upload used by the
plain copy path — issues its copy without any force flag, so not every
file-upload path uses the overwrite variant. -/
theorem cpToDevice_plain_cp :
    runsOf (cpToDeviceOp "COM3" ⟨fun _ => .ok ""⟩ "a.py" "/lib/a.py").2
      = [["connect", "COM3", "fs", "mkdir", "-p", "/lib"],
         ["connect", "COM3", "fs", "cp", "a.py", ":/lib/a.py"]]
    ∧ (cpToDeviceOp "COM3" ⟨fun _ => .ok ""⟩ "a.py" "/lib/a.py").1
      = .ok () := by decide

/-- Witness for the amended C9: the actual copy invocation of
`uploadReplacing` carries the force flag. -/
theorem uploadReplacing_always_forces_witness :
    ["connect", "COM3", "fs", "cp", "-f", "a.py", ":/lib/a.py"]
        ∈ runsOf (uploadReplacingOp "COM3" ⟨fun _ => .ok ""⟩
            "a.py" "/lib/a.py").2
    ∧ (["connect", "COM3", "fs", "cp", "-f", "a.py", ":/lib/a.py"] :
        List String).get? 4 = some "-f" := by
  refine ⟨by decide, ?_⟩
  exact uploadReplacing_always_forces "COM3" ⟨fun _ => .ok ""⟩
    "a.py" "/lib/a.py"
    ["connect", "COM3", "fs", "cp", "-f", "a.py", ":/lib/a.py"]
    (by decide) (by decide)

/-- C10 (amended): with a concrete port, `fileExists` never rejects: it
resolves to `true` exactly when the stat invocation succeeds and to
`false` on every failure — not-found, serial/connection, or any other
error alike. The port guard (see the counterexample) is the sole throwing
path, contradicting the claim that it never throws. -/
theorem fileExists_swallows_stat_failures (cfg : String) (w : World)
    (p : String) (hb : badConnect (effConnect cfg) = false) :
    (fileExistsOp cfg w p).1
      = .ok (isOkB
          (w.call ["connect", effConnect cfg, "fs", "stat", pathArgOf p])) := by
  have hfst := callW_fst w true
    ["connect", effConnect cfg, "fs", "stat", pathArgOf p]
  simp only [fileExistsOp]
  rw [if_neg (by simp [hb])]
  split
  next out tr heq =>
    rw [heq] at hfst
    rw [← hfst]
    rfl
  next e tr heq =>
    rw [heq] at hfst
    rw [← hfst]
    repeat' first
      | rfl
      | split

/-- Counterexample to C10 as stated: with the default `"auto"` connect
string `fileExists` throws the typed port error instead of returning
`false`. -/
theorem fileExists_auto_port_rejects :
    fileExistsOp "auto" ⟨fun _ => .ok ""⟩ "/main.py"
      = (.error portErr, []) := by decide

/-- Witness for the amended C10 at an arbitrary (non-matched) stat error. -/
theorem fileExists_swallows_stat_failures_witness :
    (fileExistsOp "COM3" ⟨fun _ => .error "unexpected chaos"⟩ "/main.py").1
      = .ok false := by
  exact fileExists_swallows_stat_failures "COM3"
    ⟨fun _ => .error "unexpected chaos"⟩ "/main.py" (by decide)

end MpyWorkbench
